import Mathlib

set_option linter.unusedVariables false

/-!
# Verification of `justify.py`

A shallow embedding of the text-justification program `src/justify.py`
(functions `get_badness`, `words_to_line`, `justify_text_greedy`,
`justify_text_bruteforce`, `justify_text_dp`, `justify_text`), followed by
theorems settling the specification claims.

Conventions of the embedding:
* Python strings are `List Char`; a word and a rendered line are both such lists.
* Python `int` is `Int`; word counts and list indices are `Nat`.
* Python exceptions are the explicit error type `JustifyError` and fallible
  functions return `Except JustifyError _`.
* Python floor division `//` and `%` on ints are `Int.fdiv` / `Int.fmod`
  (identical semantics for the divisors that occur, which are positive).
* `logging` and timing calls of the source are side-effect-free and dropped.
-/

abbrev Word := List Char

abbrev Line := List Char

/-- The distinct failure modes of `justify.py` (the source raises
`BaseException` with a distinguishing message for each of these). -/
inductive JustifyError where
  | invalidAlgorithm (algorithm : String)
  | oversizedWord (word : Word) (lineLength : Int)
  | emptyWords
  | lineTooShort (lineLength : Int)
  | bruteforceFailed
  deriving DecidableEq, Repr

/-- The non-`None` branch of `get_badness` (source lines 186-194), i.e. the
value `get_badness` computes whenever `words_in_line_count ≥ 1`.
`Int.fdiv`/`Int.fmod` are Python's floor `//` and `%`. -/
def get_badness_pos (words_in_line_count : Nat) (line_length current_line_min_length : Int) :
    Int :=
  let additional_spaces := line_length - current_line_min_length
  if words_in_line_count = 1 then
    additional_spaces ^ 2
  else
    let min_additional_spaces_per_w := additional_spaces.fdiv ((words_in_line_count : Int) - 1)
    let mod := additional_spaces.fmod ((words_in_line_count : Int) - 1)
    (min_additional_spaces_per_w + 1) ^ 2 * mod
      + min_additional_spaces_per_w ^ 2 * ((words_in_line_count : Int) - 1 - mod)

/-- `get_badness` (source lines 183-194); Python returns `None` for a zero
word count. -/
def get_badness (words_in_line_count : Nat) (line_length current_line_min_length : Int) :
    Option Int :=
  if words_in_line_count = 0 then none
  else some (get_badness_pos words_in_line_count line_length current_line_min_length)

/-- `sum(len(w) for w in words_tmp) + len(words_tmp) - 1`, the minimum
rendered length of a group (all words plus one mandatory space per gap),
as computed at source lines 106, 124 and 153 (Python int arithmetic). -/
def min_length (g : List Word) : Int :=
  ((g.map List.length).sum : Int) + g.length - 1

/-- The mutation loop of `words_to_line` (source lines 171-176) combined with
the final `" ".join` (line 177): each remaining word is preceded by one
join space plus its additional spaces; the first `mod` gaps get one more. -/
def words_to_line_go (min_additional_spaces_per_w : Nat) : List Word → Nat → Line
  | [], _ => []
  | w :: ws, mod =>
    if 0 < mod then
      List.replicate (min_additional_spaces_per_w + 2) ' ' ++ w
        ++ words_to_line_go min_additional_spaces_per_w ws (mod - 1)
    else
      List.replicate (min_additional_spaces_per_w + 1) ' ' ++ w
        ++ words_to_line_go min_additional_spaces_per_w ws 0

/-- `words_to_line` (source lines 161-177).  In the single-word case Python's
`" " * n` of a negative `n` is empty, which `Int.toNat` reproduces.  In the
multi-word case `len(words) - 1` is the number of gaps, and the division is
guarded by `additional_spaces ≥ 0`, so Nat division agrees with Python. -/
def words_to_line (words : List Word) (line_length current_line_min_length : Int) :
    Except JustifyError Line :=
  match words with
  | [] => .error .emptyWords
  | [w] => .ok (w ++ List.replicate (line_length - current_line_min_length).toNat ' ')
  | w :: ws =>
    let additional_spaces := line_length - current_line_min_length
    if additional_spaces < 0 then .error (.lineTooShort line_length)
    else
      .ok (w ++ words_to_line_go (additional_spaces.toNat / ws.length) ws
        (additional_spaces.toNat % ws.length))

/-- The loop state of `justify_text_greedy` (source lines 67-69): the closed
groups (each paired with the tracked `current_line_min_length` that is later
passed to `words_to_line`), the open group, and its tracked minimum length. -/
structure GreedyState where
  result : List (List Word × Int)
  words_tmp : List Word
  current_line_min_length : Int

/-- One iteration of the `for word in words` loop of `justify_text_greedy`
(source lines 71-82). -/
def greedy_step (line_length : Int) (st : GreedyState) (word : Word) : GreedyState :=
  let new_line_min_length :=
    st.current_line_min_length + word.length + (if 0 < st.words_tmp.length then 1 else 0)
  if line_length < new_line_min_length then
    { result := st.result ++ [(st.words_tmp, st.current_line_min_length)]
      words_tmp := [word]
      current_line_min_length := (word.length : Int) }
  else
    { st with
      words_tmp := st.words_tmp ++ [word]
      current_line_min_length := new_line_min_length }

/-- The groups produced by `justify_text_greedy` (loop plus the final flush at
source lines 83-85), each paired with its tracked minimum length. -/
def greedy_groups (words : List Word) (line_length : Int) : List (List Word × Int) :=
  let st := words.foldl (greedy_step line_length) ⟨[], [], 0⟩
  if 0 < st.words_tmp.length then
    st.result ++ [(st.words_tmp, st.current_line_min_length)]
  else st.result

/-- `justify_text_greedy` (source lines 65-88).  The source interleaves the
`words_to_line` calls with the scan; since `words_to_line` is pure and
`mapM` stops at the first error exactly as the first raised exception would,
rendering the closed groups afterwards is equivalent.  The `badness`
accumulator of the source is only logged and is dropped. -/
def justify_text_greedy (words : List Word) (line_length : Int) :
    Except JustifyError (List Line) :=
  (greedy_groups words line_length).mapM fun g => words_to_line g.1 line_length g.2

/-- The words_slice `words[b : e+1]` of Python. -/
def words_slice (words : List Word) (b e : Nat) : List Word :=
  (words.drop b).take (e + 1 - b)

/-- The inner loop of `justify_text_bruteforce` (source lines 99-111):
state `(begin, badness)` or `none` once a group is invalid (the source sets
`badness = None` and breaks; propagating `none` through the remaining
iterations is the same). -/
def subset_scan (words : List Word) (line_length : Int) (subset : Nat) : Option Int :=
  ((List.range words.length).foldl
    (fun acc i =>
      match acc with
      | none => none
      | some (b, badness) =>
        if subset.testBit i then
          let words_tmp := words_slice words b i
          if line_length < min_length words_tmp ∨ words_tmp.length = 0 then none
          else
            some (i + 1,
              badness + get_badness_pos words_tmp.length line_length (min_length words_tmp))
        else acc)
    (some (0, 0))).map Prod.snd

/-- The reconstruction loop of `justify_text_bruteforce` (source lines
117-126), producing the groups of a subset's partition. -/
def subset_groups (words : List Word) (subset : Nat) : List (List Word) :=
  ((List.range words.length).foldl
    (fun (acc : Nat × List (List Word)) i =>
      if subset.testBit i then (i + 1, acc.2 ++ [words_slice words acc.1 i]) else acc)
    (0, [])).2

/-- The outer loop of `justify_text_bruteforce` (source lines 95-114):
fold over all subsets, forcing the most significant bit, keeping the first
strictly best `(best_subset, best_badness)` pair. -/
def bf_best (words : List Word) (line_length : Int) : Nat × Option Int :=
  (List.range (2 ^ (words.length - 1))).foldl
    (fun acc s =>
      let subset := s ||| 2 ^ (words.length - 1)
      match subset_scan words line_length subset with
      | none => acc
      | some badness =>
        match acc.2 with
        | none => (subset, some badness)
        | some best_badness =>
          if badness < best_badness then (subset, some badness) else acc)
    (0, none)

/-- The partition rendered by `justify_text_bruteforce`. -/
def bf_partition (words : List Word) (line_length : Int) : List (List Word) :=
  subset_groups words (bf_best words line_length).1

/-- `justify_text_bruteforce` (source lines 91-129).  (For an empty word
list the Python source would fault on `range(0, 2**-1)`; `justify_text`
returns before calling it, so that case is unreachable.) -/
def justify_text_bruteforce (words : List Word) (line_length : Int) :
    Except JustifyError (List Line) :=
  match (bf_best words line_length).2 with
  | none => .error .bruteforceFailed
  | some _ =>
    (bf_partition words line_length).mapM fun g =>
      words_to_line g line_length (min_length g)

/-- The step of the inner `for end in range(begin, len(words))` loop of
`justify_text_dp` (source lines 144-147): track the running minimum
(initially the `-1` sentinel) and the `end` achieving it, updating only on
strict improvement. -/
def dp_fold_min (f : Nat → Int) : List Nat → Int × Nat → Int × Nat
  | [], acc => acc
  | e :: es, acc =>
    dp_fold_min f es (if acc.1 = -1 ∨ f e < acc.1 then (f e, e) else acc)

/-- The candidate `end` positions scanned by the inner loop of
`justify_text_dp` for a given `begin` (source lines 138-143): `end` runs
upward from `begin` and the loop breaks at the first `end` whose accumulated
minimum line length exceeds `line_length`.  The accumulated
`current_line_min_length` at `end` equals `min_length (words_slice words b e)`. -/
def dp_ends (words : List Word) (line_length : Int) (b : Nat) : List Nat :=
  (List.range' b (words.length - b)).takeWhile
    fun e => decide (min_length (words_slice words b e) ≤ line_length)

/-- The `min_badness` / `best_end` tables of `justify_text_dp` (source lines
134-147), presented as a recursion over suffix start `b`.  The source fills
the arrays right to left; since entry `b` only reads entries `e + 1 > b`,
the table is the fixed point computed here, with `fuel ≥ len(words) - b`
steps sufficing.  Entry `len(words)` is `(0, _)` (`min_badness[n] = 0`);
the `best_end` component is initialised to `len(words) - 1`. -/
def dp_tables (words : List Word) (line_length : Int) : Nat → Nat → Int × Nat
  | 0, _ => (0, words.length - 1)
  | fuel + 1, b =>
    if words.length ≤ b then (0, words.length - 1)
    else
      dp_fold_min
        (fun e =>
          get_badness_pos (e - b + 1) line_length (min_length (words_slice words b e))
            + (dp_tables words line_length fuel (e + 1)).1)
        (dp_ends words line_length b) (-1, words.length - 1)

/-- `min_badness[b]` of the filled DP table. -/
def min_badness (words : List Word) (line_length : Int) (b : Nat) : Int :=
  (dp_tables words line_length (words.length - b) b).1

/-- `best_end[b]` of the filled DP table. -/
def best_end (words : List Word) (line_length : Int) (b : Nat) : Nat :=
  (dp_tables words line_length (words.length - b) b).2

/-- The reconstruction loop of `justify_text_dp` (source lines 148-155):
follow `best_end` forward from `begin = 0`.  Each step advances `begin` past
`best_end[begin] ≥ begin`, so `len(words)` iterations of fuel suffice. -/
def dp_reconstruct (words : List Word) (line_length : Int) : Nat → Nat → List (List Word)
  | 0, _ => []
  | fuel + 1, b =>
    if words.length ≤ b then []
    else
      words_slice words b (best_end words line_length b)
        :: dp_reconstruct words line_length fuel (best_end words line_length b + 1)

/-- The partition rendered by `justify_text_dp`. -/
def dp_partition (words : List Word) (line_length : Int) : List (List Word) :=
  dp_reconstruct words line_length words.length 0

/-- `justify_text_dp` (source lines 132-158): reconstruct the partition and
render each group with its recomputed `min_length`. -/
def justify_text_dp (words : List Word) (line_length : Int) :
    Except JustifyError (List Line) :=
  (dp_partition words line_length).mapM fun g =>
    words_to_line g line_length (min_length g)

/-- `justify_text` (source lines 49-62): reject unknown algorithm names,
return `[]` for no words, reject the first word longer than `line_length`,
then dispatch on the algorithm name. -/
def justify_text (words : List Word) (line_length : Int) (algorithm : String) :
    Except JustifyError (List Line) :=
  if algorithm ≠ "dynamic" ∧ algorithm ≠ "greedy" ∧ algorithm ≠ "bruteforce" then
    .error (.invalidAlgorithm algorithm)
  else if words.length = 0 then .ok []
  else
    match words.find? (fun w => decide (line_length < (w.length : Int))) with
    | some word => .error (.oversizedWord word line_length)
    | none =>
      if algorithm = "dynamic" then justify_text_dp words line_length
      else if algorithm = "greedy" then justify_text_greedy words line_length
      else justify_text_bruteforce words line_length

/-! ## Specification-side notions

The notions the claims quantify over: all partitions of the word sequence
into contiguous non-empty groups, validity of a partition for a width, and
its total badness. -/

/-- All partitions of a list into contiguous non-empty groups (in order):
a partition of `x :: xs` either starts a fresh group `[x]` before a
partition of `xs`, or prepends `x` to the first group of one. -/
def splits : List Word → List (List (List Word))
  | [] => [[]]
  | x :: xs =>
    (splits xs).flatMap fun p =>
      ([x] :: p) ::
        (match p with
          | [] => []
          | g :: gs => [(x :: g) :: gs])

/-- A partition is valid for a width when every group is non-empty and fits
the width with single spaces between its words. -/
def valid_partition (line_length : Int) (p : List (List Word)) : Prop :=
  ∀ g ∈ p, g ≠ [] ∧ min_length g ≤ line_length

instance (line_length : Int) (p : List (List Word)) :
    Decidable (valid_partition line_length p) := by
  unfold valid_partition; infer_instance

/-- Total badness of a partition: the sum of the per-group badness values. -/
def total_badness (line_length : Int) (p : List (List Word)) : Int :=
  (p.map fun g => get_badness_pos g.length line_length (min_length g)).sum

/-! ## Basic facts about the cost model -/

instance {ε α : Type} [DecidableEq ε] [DecidableEq α] : DecidableEq (Except ε α) := fun a b =>
  match a, b with
  | .ok x, .ok y => decidable_of_iff (x = y) (by simp)
  | .error x, .error y => decidable_of_iff (x = y) (by simp)
  | .ok _, .error _ => .isFalse (by simp)
  | .error _, .ok _ => .isFalse (by simp)

theorem get_badness_pos_two_le (count : Nat) (w m : Int) (hc : 2 ≤ count) :
    get_badness_pos count w m =
      (w - m) % ((count : Int) - 1) * ((w - m) / ((count : Int) - 1) + 1) ^ 2
        + (((count : Int) - 1) - (w - m) % ((count : Int) - 1))
          * ((w - m) / ((count : Int) - 1)) ^ 2 := by
  have h1 : count ≠ 1 := by omega
  have hg : (0 : Int) ≤ (count : Int) - 1 := by
    have : (2 : Int) ≤ (count : Int) := by exact_mod_cast hc
    omega
  simp only [get_badness_pos, h1, if_false]
  rw [Int.fdiv_eq_ediv _ hg, Int.fmod_eq_emod _ hg]
  ring

theorem get_badness_pos_nonneg (count : Nat) (w m : Int) (hc : 1 ≤ count) (hm : m ≤ w) :
    0 ≤ get_badness_pos count w m := by
  by_cases h1 : count = 1
  · simp only [get_badness_pos, h1, if_pos rfl]
    exact sq_nonneg _
  · have hc2 : 2 ≤ count := by omega
    rw [get_badness_pos_two_le count w m hc2]
    have hg : (0 : Int) < (count : Int) - 1 := by
      have : (2 : Int) ≤ (count : Int) := by exact_mod_cast hc2
      omega
    have hr0 : 0 ≤ (w - m) % ((count : Int) - 1) := Int.emod_nonneg _ (by omega)
    have hrlt : (w - m) % ((count : Int) - 1) < (count : Int) - 1 :=
      Int.emod_lt_of_pos _ hg
    have hq0 : 0 ≤ (w - m) / ((count : Int) - 1) := Int.ediv_nonneg (by omega) (by omega)
    have := sq_nonneg ((w - m) / ((count : Int) - 1) + 1)
    have := sq_nonneg ((w - m) / ((count : Int) - 1))
    nlinarith

/-- **C4**: for `count ≥ 1` and `minLength ≤ width`, with `extra = width −
minLength`, `get_badness` returns `extra²` when `count = 1` and otherwise
`r·(q+1)² + (gaps−r)·q²` with `gaps = count − 1`, `q = extra div gaps`,
`r = extra mod gaps`; and the result is a non-negative integer. -/
theorem get_badness_formula (count : Nat) (width minLength : Int)
    (hc : 1 ≤ count) (hm : minLength ≤ width) :
    get_badness count width minLength =
      some (if count = 1 then (width - minLength) ^ 2
        else
          (width - minLength) % ((count : Int) - 1)
              * ((width - minLength) / ((count : Int) - 1) + 1) ^ 2
            + (((count : Int) - 1) - (width - minLength) % ((count : Int) - 1))
              * ((width - minLength) / ((count : Int) - 1)) ^ 2)
      ∧ 0 ≤ get_badness_pos count width minLength := by
  have h0 : count ≠ 0 := by omega
  refine ⟨?_, get_badness_pos_nonneg count width minLength hc hm⟩
  simp only [get_badness, h0, if_false, Option.some_inj]
  by_cases h1 : count = 1
  · simp [get_badness_pos, h1]
  · rw [if_neg h1, get_badness_pos_two_le count width minLength (by omega)]

theorem get_badness_formula_witness :
    (get_badness 3 10 6 =
      some (if 3 = 1 then ((10 : Int) - 6) ^ 2
        else
          ((10 : Int) - 6) % ((3 : Nat) - 1 : Int)
              * (((10 : Int) - 6) / ((3 : Nat) - 1 : Int) + 1) ^ 2
            + ((((3 : Nat) : Int) - 1) - ((10 : Int) - 6) % ((3 : Nat) - 1 : Int))
              * (((10 : Int) - 6) / ((3 : Nat) - 1 : Int)) ^ 2)
      ∧ 0 ≤ get_badness_pos 3 10 6) :=
  get_badness_formula 3 10 6 (by decide) (by decide)

/-! ## The line renderer -/

theorem words_to_line_cons_cons (w v : Word) (ws : List Word) (L m : Int) :
    words_to_line (w :: v :: ws) L m =
      if L - m < 0 then .error (.lineTooShort L)
      else
        .ok (w ++ words_to_line_go ((L - m).toNat / (v :: ws).length) (v :: ws)
          ((L - m).toNat % (v :: ws).length)) := rfl

theorem words_to_line_go_length (q : Nat) (ws : List Word) : ∀ r : Nat, r ≤ ws.length →
    (words_to_line_go q ws r).length
      = ws.length * (q + 1) + r + (ws.map List.length).sum := by
  induction ws with
  | nil =>
    intro r hr
    simp only [List.length_nil, Nat.le_zero] at hr
    subst hr
    simp [words_to_line_go]
  | cons w ws ih =>
    intro r hr
    by_cases h : 0 < r
    · obtain ⟨r', rfl⟩ : ∃ r', r = r' + 1 := ⟨r - 1, by omega⟩
      have hr' : r' ≤ ws.length := by simp at hr; omega
      simp only [words_to_line_go, if_pos h, List.length_append, List.length_replicate,
        List.length_cons, List.map_cons, List.sum_cons, Nat.add_sub_cancel]
      rw [ih r' hr']
      ring
    · have hr0 : r = 0 := by omega
      subst hr0
      simp only [words_to_line_go, if_neg h, List.length_append, List.length_replicate,
        List.length_cons, List.map_cons, List.sum_cons]
      rw [ih 0 (by omega)]
      ring

/-- The total number of atomic units a rendered group occupies is exactly the
line length, provided the group is non-empty and fits. -/
theorem words_to_line_ok (g : List Word) (L : Int) (hg : g ≠ [])
    (hm : min_length g ≤ L) :
    ∃ line, words_to_line g L (min_length g) = .ok line ∧ (line.length : Int) = L := by
  match g with
  | [w] =>
    refine ⟨_, rfl, ?_⟩
    have hw : (w.length : Int) ≤ L := by
      simpa [min_length] using hm
    have h0 : (0:Int) ≤ L - w.length := by omega
    simp only [List.length_append, List.length_replicate]
    have hm' : min_length [w] = (w.length : Int) := by simp [min_length]
    rw [hm']
    push_cast [Int.toNat_of_nonneg h0]
    omega
  | w :: v :: ws =>
    have hml : min_length (w :: v :: ws)
        = (w.length : Int) + ((((v :: ws).map List.length).sum : Nat) : Int)
          + (((v :: ws).length : Nat) : Int) := by
      simp only [min_length, List.map_cons, List.sum_cons, List.length_cons]
      push_cast
      ring
    have hmin0 : (0:Int) ≤ min_length (w :: v :: ws) := by rw [hml]; positivity
    have hext : ¬ (L - min_length (w :: v :: ws) < 0) := by omega
    rw [words_to_line_cons_cons, if_neg hext]
    refine ⟨_, rfl, ?_⟩
    have hcast : ((L - min_length (w :: v :: ws)).toNat : Int)
        = L - min_length (w :: v :: ws) := Int.toNat_of_nonneg (by omega)
    set ext : Nat := (L - min_length (w :: v :: ws)).toNat with hextdef
    have hrle : ext % (v :: ws).length ≤ (v :: ws).length :=
      le_of_lt (Nat.mod_lt ext (by simp))
    rw [List.length_append, words_to_line_go_length _ _ _ hrle]
    have hdm : ((v :: ws).length : Int) * ((ext / (v :: ws).length : Nat) : Int)
        + ((ext % (v :: ws).length : Nat) : Int) = (ext : Int) := by
      exact_mod_cast Nat.div_add_mod ext (v :: ws).length
    rw [hml] at hcast
    push_cast at hcast hdm ⊢
    linarith [hdm, hcast]

/-! ## Space distribution across gaps (claim C5) -/

theorem words_to_line_go_cons (q : Nat) (w : Word) (ws : List Word) (m : Nat) :
    words_to_line_go q (w :: ws) m =
      if 0 < m then
        List.replicate (q + 2) ' ' ++ w ++ words_to_line_go q ws (m - 1)
      else
        List.replicate (q + 1) ' ' ++ w ++ words_to_line_go q ws 0 := rfl

/-- Extra space-units (beyond the one mandatory join space) in gap `i`
(0-based): the first `r` gaps get `q + 1`, the rest `q`. -/
def gap_spaces (q r i : Nat) : Nat := if i < r then q + 1 else q

/-- The decrementing-`mod` loop of `words_to_line` produces exactly the
indexed left-biased distribution: gap `i` receives `1 + gap_spaces q r i`
space-units.  Stated for a general starting index `n`, where `r` agrees
with `n + m` on indices `≥ n`. -/
theorem words_to_line_go_eq_flatMap (q : Nat) (ws : List Word) :
    ∀ (n m r : Nat), (∀ i, n ≤ i → (i < r ↔ i < n + m)) →
    words_to_line_go q ws m
      = (List.enumFrom n ws).flatMap
          (fun p => List.replicate (1 + gap_spaces q r p.1) ' ' ++ p.2) := by
  induction ws with
  | nil => intro n m r _; simp [words_to_line_go, List.enumFrom_nil]
  | cons w ws ih =>
    intro n m r h
    rw [List.enumFrom_cons, List.flatMap_cons]
    by_cases hm : 0 < m
    · have hnr : n < r := (h n le_rfl).2 (by omega)
      have hrec := ih (n + 1) (m - 1) r (by intro i hi; rw [h i (by omega)]; omega)
      have hcount : 1 + gap_spaces q r n = q + 2 := by simp [gap_spaces, hnr]; omega
      rw [words_to_line_go_cons, if_pos hm, hrec, hcount, List.append_assoc]
    · have hnr : ¬ n < r := by
        intro hc
        have := (h n le_rfl).1 hc
        omega
      have hrec := ih (n + 1) 0 r (by
        intro i hi
        constructor
        · intro hir; have := (h i (by omega)).1 hir; omega
        · omega)
      have hcount : 1 + gap_spaces q r n = q + 1 := by simp [gap_spaces, hnr]; omega
      rw [words_to_line_go_cons, if_neg hm, hrec, hcount, List.append_assoc]

/-- Sum of squares of the per-gap extra spaces. -/
theorem sum_gap_spaces_sq (q : Nat) : ∀ (gaps r : Nat), r ≤ gaps →
    ∑ i ∈ Finset.range gaps, gap_spaces q r i ^ 2
      = r * (q + 1) ^ 2 + (gaps - r) * q ^ 2 := by
  intro gaps
  induction gaps with
  | zero =>
    intro r hr
    have : r = 0 := by omega
    subst this
    simp
  | succ g ihg =>
    intro r hr
    rw [Finset.sum_range_succ]
    by_cases hrg : r ≤ g
    · rw [ihg r hrg]
      have hgap : gap_spaces q r g = q := by
        simp only [gap_spaces]
        rw [if_neg (show ¬ g < r by omega)]
      rw [hgap, show g + 1 - r = (g - r) + 1 by omega]
      ring
    · have hr1 : r = g + 1 := by omega
      subst hr1
      have hcongr : ∀ i ∈ Finset.range g, gap_spaces q (g + 1) i ^ 2
          = gap_spaces q g i ^ 2 := by
        intro i hi
        rw [Finset.mem_range] at hi
        simp only [gap_spaces, if_pos (by omega : i < g + 1), if_pos hi]
      rw [Finset.sum_congr rfl hcongr, ihg g le_rfl,
        show gap_spaces q (g + 1) g = q + 1 by simp [gap_spaces]]
      simp only [Nat.sub_self]
      ring

/-- **C5**: for a non-empty group with `min_length ≤ width`: a single word
is rendered as the word followed by `width − min_length` trailing spaces;
several words are rendered with the first `r` inter-word gaps containing
`1 + q + 1` spaces and the remaining gaps `1 + q` spaces, where
`q`/`r` are quotient and remainder of `extra = width − min_length` by
`gaps = count − 1` (left-biased distribution); and the per-gap extra counts
are exactly those whose squares `get_badness` sums. -/
theorem words_to_line_distribution (g : List Word) (L : Int) (hg : g ≠ [])
    (hm : min_length g ≤ L) :
    (∀ w, g = [w] →
      words_to_line g L (min_length g)
        = .ok (w ++ List.replicate (L - min_length g).toNat ' ')) ∧
    (∀ w ws, g = w :: ws → ws ≠ [] →
      words_to_line g L (min_length g)
        = .ok (w ++ ((List.enumFrom 0 ws).flatMap fun p =>
            List.replicate (1 + gap_spaces ((L - min_length g).toNat / (g.length - 1))
              ((L - min_length g).toNat % (g.length - 1)) p.1) ' ' ++ p.2)) ∧
      get_badness g.length L (min_length g)
        = some ((∑ i ∈ Finset.range (g.length - 1),
            gap_spaces ((L - min_length g).toNat / (g.length - 1))
              ((L - min_length g).toNat % (g.length - 1)) i ^ 2 : Nat) : Int)) := by
  constructor
  · rintro w rfl
    rfl
  · rintro w ws rfl hws
    obtain ⟨v, ws', rfl⟩ : ∃ v ws', ws = v :: ws' := by
      cases ws with
      | nil => exact absurd rfl hws
      | cons v ws' => exact ⟨v, ws', rfl⟩
    have hml : min_length (w :: v :: ws')
        = (w.length : Int) + ((((v :: ws').map List.length).sum : Nat) : Int)
          + (((v :: ws').length : Nat) : Int) := by
      simp only [min_length, List.map_cons, List.sum_cons, List.length_cons]
      push_cast
      ring
    have hmin0 : (0:Int) ≤ min_length (w :: v :: ws') := by rw [hml]; positivity
    have hext : ¬ (L - min_length (w :: v :: ws') < 0) := by omega
    have hgaps : (w :: v :: ws').length - 1 = (v :: ws').length := by simp
    have hrlt : (L - min_length (w :: v :: ws')).toNat % (v :: ws').length
        < (v :: ws').length := Nat.mod_lt _ (by simp)
    constructor
    · rw [words_to_line_cons_cons, if_neg hext, hgaps]
      congr 2
      exact words_to_line_go_eq_flatMap _ _ 0 _ _ (by intro i _; omega)
    · have hc0 : (w :: v :: ws').length ≠ 0 := by simp
      have hc1 : 2 ≤ (w :: v :: ws').length := by simp
      rw [hgaps]
      set ext : Nat := (L - min_length (w :: v :: ws')).toNat with hextdef
      have hcast : (ext : Int) = L - min_length (w :: v :: ws') :=
        Int.toNat_of_nonneg (by omega)
      rw [get_badness, if_neg hc0, get_badness_pos_two_le _ _ _ hc1,
        sum_gap_spaces_sq _ _ _ (le_of_lt hrlt), Option.some_inj]
      have hcount : ((w :: v :: ws').length : Int) - 1 = ((v :: ws').length : Nat) := by
        simp
      rw [hcount, ← hcast]
      rw [show ((ext : Int) % ((v :: ws').length : Nat) : Int)
            = ((ext % (v :: ws').length : Nat) : Int) by rw [Int.ofNat_emod],
          show ((ext : Int) / ((v :: ws').length : Nat) : Int)
            = ((ext / (v :: ws').length : Nat) : Int) by rw [Int.ofNat_ediv]]
      push_cast [Nat.cast_sub (le_of_lt hrlt)]
      ring

theorem words_to_line_distribution_witness :
    words_to_line [['a','b'], ['c'], ['d']] 9 (min_length [['a','b'], ['c'], ['d']])
      = .ok "ab   c  d".toList := by
  have h := (words_to_line_distribution [['a','b'], ['c'], ['d']] 9 (by decide)
    (by decide)).2 ['a','b'] [['c'], ['d']] rfl (by decide)
  rw [h.1]
  decide

/-! ## The orchestrator on concrete and invalid inputs (claims C6, C7, C8) -/

/-- **C6**: the worked example: the default dynamic strategy splits
`Hello! Nice / to meet you.` after the second word and puts two spaces in
the single gap of the first line. -/
theorem justify_text_worked_example :
    justify_text ["Hello!".toList, "Nice".toList, "to".toList, "meet".toList, "you.".toList]
      12 "dynamic" = .ok ["Hello!  Nice".toList, "to meet you.".toList] := by
  decide

theorem justify_text_find_oversized (words : List Word) (L : Int) (algorithm : String)
    (halg : algorithm = "dynamic" ∨ algorithm = "greedy" ∨ algorithm = "bruteforce")
    (w : Word)
    (hfind : words.find? (fun w => decide (L < (w.length : Int))) = some w) :
    justify_text words L algorithm = .error (.oversizedWord w L) := by
  have hne : words ≠ [] := by
    intro h
    subst h
    simp [List.find?] at hfind
  have hlen : ¬ words.length = 0 := by simpa [List.length_eq_zero] using hne
  have hcond : ¬ (algorithm ≠ "dynamic" ∧ algorithm ≠ "greedy" ∧ algorithm ≠ "bruteforce") := by
    rcases halg with h | h | h <;> simp [h]
  unfold justify_text
  rw [if_neg hcond, if_neg hlen, hfind]

/-- **C7**: with a recognized strategy, a word list whose first
over-long word (in input order, as `List.find?` locates it) is `w` makes
`justify_text` fail with the oversized-word error naming `w`, returning no
lines at all. -/
theorem justify_text_oversized (words : List Word) (L : Int) (algorithm : String)
    (halg : algorithm = "dynamic" ∨ algorithm = "greedy" ∨ algorithm = "bruteforce")
    (w : Word)
    (hfind : words.find? (fun w => decide (L < (w.length : Int))) = some w) :
    justify_text words L algorithm = .error (.oversizedWord w L) :=
  justify_text_find_oversized words L algorithm halg w hfind

theorem justify_text_oversized_witness :
    justify_text ["ok".toList, "waytoolongforthiswidth".toList] 5 "dynamic"
      = .error (.oversizedWord "waytoolongforthiswidth".toList 5) :=
  justify_text_oversized _ 5 "dynamic" (Or.inl rfl) _ (by decide)

/-- **C8** counterexample: the claim says `justify_text` fails with a
width-validation error for every word list and `width ≤ 0`; in fact on the
empty word list with `width = 0` it succeeds and returns no lines. -/
theorem justify_text_no_width_validation :
    justify_text [] 0 "dynamic" = .ok [] := by decide

/-- **C8** (amended): the code performs no width validation and has no
width-specific error: for `width ≤ 0` and a recognized strategy,
`justify_text` returns `ok []` on the empty word list, and on a non-empty
list whose head word is non-empty it fails with the *oversized-word* error
naming that first word (every non-empty word exceeds a non-positive width). -/
theorem justify_text_nonpositive_width (words : List Word) (L : Int) (algorithm : String)
    (hL : L ≤ 0)
    (halg : algorithm = "dynamic" ∨ algorithm = "greedy" ∨ algorithm = "bruteforce") :
    justify_text [] L algorithm = .ok [] ∧
    (∀ w ws, words = w :: ws → w ≠ [] →
      justify_text words L algorithm = .error (.oversizedWord w L)) := by
  have hcond : ¬ (algorithm ≠ "dynamic" ∧ algorithm ≠ "greedy" ∧ algorithm ≠ "bruteforce") := by
    rcases halg with h | h | h <;> simp [h]
  constructor
  · unfold justify_text
    rw [if_neg hcond]
    rfl
  · rintro w ws rfl hw
    apply justify_text_find_oversized _ _ _ halg
    have hwl : 0 < w.length := List.length_pos.mpr hw
    have hdec : (fun w : Word => decide (L < (w.length : Int))) w = true := by
      simp only [decide_eq_true_eq]
      omega
    simp [List.find?, hdec]

theorem justify_text_nonpositive_width_witness :
    justify_text [] 0 "greedy" = .ok [] ∧
    justify_text [['a']] 0 "greedy" = .error (.oversizedWord ['a'] 0) := by
  have h := justify_text_nonpositive_width [['a']] 0 "greedy" (by decide)
    (Or.inr (Or.inl rfl))
  exact ⟨h.1, h.2 ['a'] [] rfl (by decide)⟩

/-! ## Partitions into contiguous groups -/

theorem mem_splits_cons {x : Word} {xs : List Word} {p : List (List Word)} :
    p ∈ splits (x :: xs) ↔
      (∃ q, q ∈ splits xs ∧ p = [x] :: q) ∨
      (∃ g gs, (g :: gs) ∈ splits xs ∧ p = (x :: g) :: gs) := by
  simp only [splits, List.mem_flatMap]
  constructor
  · rintro ⟨q, hq, hp⟩
    cases q with
    | nil =>
      rcases List.mem_cons.mp hp with h | h
      · exact Or.inl ⟨[], hq, h⟩
      · simp at h
    | cons g gs =>
      rcases List.mem_cons.mp hp with h | h
      · exact Or.inl ⟨g :: gs, hq, h⟩
      · exact Or.inr ⟨g, gs, hq, List.mem_singleton.mp h⟩
  · rintro (⟨q, hq, rfl⟩ | ⟨g, gs, hq, rfl⟩)
    · exact ⟨q, hq, List.mem_cons_self _ _⟩
    · exact ⟨g :: gs, hq, by simp⟩

/-- Every member of `splits l` is a genuine partition: non-empty groups whose
concatenation is `l`. -/
theorem splits_flatten {l : List Word} : ∀ {p : List (List Word)}, p ∈ splits l →
    p.flatten = l ∧ ∀ g ∈ p, g ≠ [] := by
  induction l with
  | nil =>
    intro p hp
    have : p = [] := by simpa [splits] using hp
    subst this
    simp
  | cons x xs ih =>
    intro p hp
    rcases mem_splits_cons.mp hp with ⟨q, hq, rfl⟩ | ⟨g, gs, hq, rfl⟩
    · obtain ⟨hjoin, hne⟩ := ih hq
      refine ⟨by simp [hjoin], ?_⟩
      intro g hg
      rcases List.mem_cons.mp hg with rfl | hg'
      · simp
      · exact hne g hg'
    · obtain ⟨hjoin, hne⟩ := ih hq
      have hj : g ++ gs.flatten = xs := by simpa using hjoin
      refine ⟨by simp [← hj], ?_⟩
      intro g' hg'
      rcases List.mem_cons.mp hg' with rfl | hg''
      · simp
      · exact hne g' (List.mem_cons.mpr (Or.inr hg''))

/-- First-group decomposition of a partition of a non-empty list. -/
theorem mem_splits_iff_take_drop {l : List Word} (hl : l ≠ []) {p : List (List Word)} :
    p ∈ splits l ↔
      ∃ k q, 1 ≤ k ∧ k ≤ l.length ∧ q ∈ splits (l.drop k) ∧ p = l.take k :: q := by
  induction l generalizing p with
  | nil => exact absurd rfl hl
  | cons x xs ih =>
    constructor
    · intro hp
      rcases mem_splits_cons.mp hp with ⟨q, hq, rfl⟩ | ⟨g, gs, hq, rfl⟩
      · exact ⟨1, q, le_rfl, by simp, by simpa using hq, by simp⟩
      · have hxs : xs ≠ [] := by
          intro h
          subst h
          simp [splits] at hq
        obtain ⟨k', q', hk1, hkle, hq', heq⟩ := (ih hxs).mp hq
        rw [List.cons_eq_cons] at heq
        refine ⟨k' + 1, gs, by omega, by simpa using hkle, ?_, ?_⟩
        · rw [List.drop_succ_cons, heq.2]
          exact hq'
        · rw [List.take_succ_cons, heq.1]
    · rintro ⟨k, q, hk1, hkle, hq, rfl⟩
      obtain ⟨k', rfl⟩ : ∃ k', k = k' + 1 := ⟨k - 1, by omega⟩
      by_cases hk0 : k' = 0
      · subst hk0
        exact mem_splits_cons.mpr (Or.inl ⟨q, by simpa using hq, by simp⟩)
      · have hxs : xs ≠ [] := by
          intro h
          subst h
          simp at hkle
          omega
        refine mem_splits_cons.mpr (Or.inr ⟨xs.take k', q, ?_, by simp⟩)
        exact (ih hxs).mpr ⟨k', q, by omega, by simpa using hkle, by simpa using hq, rfl⟩

/-- The all-singletons partition. -/
theorem map_singleton_mem_splits : ∀ (l : List Word), (l.map fun w => [w]) ∈ splits l := by
  intro l
  induction l with
  | nil => simp [splits]
  | cons x xs ih => exact mem_splits_cons.mpr (Or.inl ⟨_, ih, by simp⟩)

/-- A valid partition has non-negative total badness. -/
theorem total_badness_nonneg {L : Int} {p : List (List Word)}
    (hp : ∀ g ∈ p, g ≠ [] ∧ min_length g ≤ L) : 0 ≤ total_badness L p := by
  induction p with
  | nil => simp [total_badness]
  | cons g gs ih =>
    have hg := hp g (List.mem_cons_self _ _)
    have h1 : 1 ≤ g.length := by
      have := List.length_pos.mpr hg.1
      omega
    have := get_badness_pos_nonneg g.length L (min_length g) h1 hg.2
    have hrest := ih fun g' hg' => hp g' (List.mem_cons.mpr (Or.inr hg'))
    simp only [total_badness, List.map_cons, List.sum_cons] at *
    omega

theorem total_badness_cons (L : Int) (g : List Word) (p : List (List Word)) :
    total_badness L (g :: p)
      = get_badness_pos g.length L (min_length g) + total_badness L p := by
  simp [total_badness]

/-! ## Slices and their minimum lengths -/

theorem length_words_slice (words : List Word) {b e : Nat} (hbe : b ≤ e)
    (he : e < words.length) : (words_slice words b e).length = e + 1 - b := by
  simp only [words_slice, List.length_take, List.length_drop]
  omega

theorem words_slice_ne_nil (words : List Word) {b e : Nat} (hbe : b ≤ e)
    (he : e < words.length) : words_slice words b e ≠ [] := by
  intro h
  have := length_words_slice words hbe he
  rw [h] at this
  simp at this
  omega

theorem words_slice_self (words : List Word) {b : Nat} (hb : b < words.length) :
    words_slice words b b = [words[b]] := by
  unfold words_slice
  rw [show b + 1 - b = 1 by omega, List.drop_eq_getElem_cons hb]
  rfl

theorem min_length_append_singleton (g : List Word) (w : Word) :
    min_length (g ++ [w]) = min_length g + w.length + 1 := by
  simp only [min_length, List.map_append, List.sum_append, List.length_append,
    List.map_cons, List.map_nil, List.sum_cons, List.sum_nil, List.length_cons,
    List.length_nil]
  push_cast
  ring

theorem words_slice_succ (words : List Word) {b e : Nat} (hb : b ≤ e + 1)
    (he : e + 1 < words.length) :
    words_slice words b (e + 1) = words_slice words b e ++ [words[e + 1]] := by
  have h1 : e + 1 + 1 - b = (e + 1 - b) + 1 := by omega
  have h2 : e + 1 - b < (words.drop b).length := by
    rw [List.length_drop]
    omega
  simp only [words_slice, h1, List.take_succ]
  congr 1
  rw [List.getElem?_eq_getElem h2]
  simp only [Option.toList_some]
  congr 1
  rw [List.getElem_drop]
  congr 1
  omega

theorem min_length_words_slice_mono (words : List Word) (b : Nat) :
    ∀ (e e' : Nat), b ≤ e → e ≤ e' → e' < words.length →
      min_length (words_slice words b e) ≤ min_length (words_slice words b e') := by
  intro e e' hbe hee he'
  induction e' with
  | zero =>
    have : e = 0 := by omega
    subst this
    exact le_rfl
  | succ m ih =>
    by_cases h : e = m + 1
    · subst h
      exact le_rfl
    · have hem : e ≤ m := by omega
      have hm : m < words.length := by omega
      refine le_trans (ih hem hm) ?_
      rw [words_slice_succ words (by omega) he']
      rw [min_length_append_singleton]
      have : (0:Int) ≤ (words[m+1].length : Int) := by positivity
      omega

/-- A single-word slice has `min_length` equal to the word's length. -/
theorem min_length_words_slice_self (words : List Word) {b : Nat}
    (hb : b < words.length) :
    min_length (words_slice words b b) = (words[b].length : Int) := by
  rw [words_slice_self words hb]
  simp [min_length]

/-! ## The DP tables -/

/-- Membership in a `takeWhile` over a contiguous range, for a
downward-closed predicate (this is the monotonic-feasibility argument that
justifies the inner-loop `break`). -/
theorem mem_takeWhile_range' (p : Nat → Bool) :
    ∀ (k s : Nat), (∀ x y, s ≤ x → x ≤ y → y < s + k → p y = true → p x = true) →
    ∀ e, e ∈ (List.range' s k).takeWhile p ↔ (s ≤ e ∧ e < s + k ∧ p e = true) := by
  intro k
  induction k with
  | zero =>
    intro s _ e
    simp only [List.range'_zero, List.takeWhile_nil, List.not_mem_nil, false_iff]
    intro h
    omega
  | succ k ih =>
    intro s hcl e
    rw [List.range'_succ, List.takeWhile_cons]
    by_cases hps : p s = true
    · rw [if_pos hps, List.mem_cons,
        ih (s + 1) (fun x y hx hxy hy hp => hcl x y (by omega) hxy (by omega) hp) e]
      constructor
      · rintro (rfl | ⟨h1, h2, h3⟩)
        · exact ⟨le_rfl, by omega, hps⟩
        · exact ⟨by omega, by omega, h3⟩
      · rintro ⟨h1, h2, h3⟩
        rcases eq_or_lt_of_le h1 with rfl | h
        · exact Or.inl rfl
        · exact Or.inr ⟨by omega, by omega, h3⟩
    · rw [if_neg hps]
      simp only [List.not_mem_nil, false_iff]
      rintro ⟨h1, h2, h3⟩
      exact hps (hcl s e le_rfl h1 (by omega) h3)

theorem mem_dp_ends_iff (words : List Word) (L : Int) {b : Nat} (hb : b < words.length) :
    ∀ e, e ∈ dp_ends words L b ↔
      (b ≤ e ∧ e < words.length ∧ min_length (words_slice words b e) ≤ L) := by
  intro e
  unfold dp_ends
  rw [mem_takeWhile_range' _ (words.length - b) b ?_ e]
  · constructor
    · rintro ⟨h1, h2, h3⟩
      exact ⟨h1, by omega, by simpa using h3⟩
    · rintro ⟨h1, h2, h3⟩
      exact ⟨h1, by omega, by simpa using h3⟩
  · intro x y hx hxy hy hp
    simp only [decide_eq_true_eq] at hp ⊢
    exact le_trans (min_length_words_slice_mono words b x y hx hxy (by omega)) hp

theorem dp_fold_min_congr {f g : Nat → Int} : ∀ (l : List Nat) (acc : Int × Nat),
    (∀ e ∈ l, f e = g e) → dp_fold_min f l acc = dp_fold_min g l acc := by
  intro l
  induction l with
  | nil => intro acc _; rfl
  | cons e es ih =>
    intro acc h
    simp only [dp_fold_min]
    rw [h e (List.mem_cons_self _ _)]
    exact ih _ (fun e' he' => h e' (List.mem_cons.mpr (Or.inr he')))

/-- What the inner-loop fold computes: either the accumulator survives
(and then it was a non-sentinel lower bound on every candidate), or the
result is a candidate attaining the minimum. -/
theorem dp_fold_min_spec (f : Nat → Int) :
    ∀ (l : List Nat) (acc : Int × Nat), (∀ e ∈ l, 0 ≤ f e) →
    (dp_fold_min f l acc = acc ∧ ∀ e ∈ l, acc.1 ≠ -1 ∧ acc.1 ≤ f e) ∨
    ((dp_fold_min f l acc).2 ∈ l ∧
      (dp_fold_min f l acc).1 = f (dp_fold_min f l acc).2 ∧
      (∀ e ∈ l, (dp_fold_min f l acc).1 ≤ f e) ∧
      (acc.1 = -1 ∨ (dp_fold_min f l acc).1 ≤ acc.1)) := by
  intro l
  induction l with
  | nil => intro acc _; exact Or.inl ⟨rfl, by simp⟩
  | cons e es ih =>
    intro acc hf
    have hfe : 0 ≤ f e := hf e (List.mem_cons_self _ _)
    have hfes : ∀ e' ∈ es, 0 ≤ f e' := fun e' he' => hf e' (List.mem_cons.mpr (Or.inr he'))
    by_cases hcond : acc.1 = -1 ∨ f e < acc.1
    · have hstep : dp_fold_min f (e :: es) acc = dp_fold_min f es (f e, e) := by
        simp only [dp_fold_min, if_pos hcond]
      rcases ih (f e, e) hfes with ⟨heq, hkept⟩ | ⟨hmem, hval, hbound, hle⟩
      · rw [hstep, heq]
        refine Or.inr ⟨List.mem_cons_self _ _, rfl, ?_, ?_⟩
        · intro e' he'
          rcases List.mem_cons.mp he' with rfl | he''
          · exact le_rfl
          · exact (hkept e' he'').2
        · rcases hcond with h | h
          · exact Or.inl h
          · exact Or.inr (le_of_lt h)
      · rw [hstep]
        have hlefe : (dp_fold_min f es (f e, e)).1 ≤ f e := by
          rcases hle with h | h
          · exact absurd (show f e = -1 from h) (by omega)
          · exact h
        refine Or.inr ⟨List.mem_cons.mpr (Or.inr hmem), hval, ?_, ?_⟩
        · intro e' he'
          rcases List.mem_cons.mp he' with rfl | he''
          · exact hlefe
          · exact hbound e' he''
        · rcases hcond with h | h
          · exact Or.inl h
          · exact Or.inr (by omega)
    · push_neg at hcond
      have hstep : dp_fold_min f (e :: es) acc = dp_fold_min f es acc := by
        simp only [dp_fold_min]
        rw [if_neg (by push_neg; exact hcond)]
      rcases ih acc hfes with ⟨heq, hkept⟩ | ⟨hmem, hval, hbound, hle⟩
      · rw [hstep, heq]
        refine Or.inl ⟨rfl, ?_⟩
        intro e' he'
        rcases List.mem_cons.mp he' with rfl | he''
        · exact ⟨hcond.1, hcond.2⟩
        · exact hkept e' he''
      · rw [hstep]
        have hleacc : (dp_fold_min f es acc).1 ≤ acc.1 := by
          rcases hle with h | h
          · exact absurd h hcond.1
          · exact h
        refine Or.inr ⟨List.mem_cons.mpr (Or.inr hmem), hval, ?_, Or.inr hleacc⟩
        intro e' he'
        rcases List.mem_cons.mp he' with rfl | he''
        · exact le_trans hleacc hcond.2
        · exact hbound e' he''

/-- The value of `dp_tables` does not depend on the fuel, once the fuel is
at least the number of table entries still to be filled. -/
theorem dp_tables_fuel_eq (words : List Word) (L : Int) :
    ∀ (fuel b : Nat), words.length - b ≤ fuel →
      dp_tables words L fuel b = dp_tables words L (words.length - b) b := by
  intro fuel
  induction fuel using Nat.strong_induction_on with
  | _ fuel ih =>
    intro b hb
    cases fuel with
    | zero =>
      have h0 : words.length - b = 0 := by omega
      rw [h0]
    | succ fuel =>
      by_cases hnb : words.length ≤ b
      · have h0 : words.length - b = 0 := by omega
        rw [h0]
        simp only [dp_tables, if_pos hnb]
      · obtain ⟨k, hk⟩ : ∃ k, words.length - b = k + 1 := ⟨words.length - b - 1, by omega⟩
        rw [hk]
        simp only [dp_tables, if_neg hnb]
        apply dp_fold_min_congr
        intro e he
        have hmem := (mem_dp_ends_iff words L (by omega) e).mp he
        rw [ih fuel (by omega) (e + 1) (by omega), ih k (by omega) (e + 1) (by omega)]

/-- The candidate cost the DP inner loop evaluates at a given `end`. -/
def dp_cand (words : List Word) (L : Int) (b e : Nat) : Int :=
  get_badness_pos (e - b + 1) L (min_length (words_slice words b e))
    + min_badness words L (e + 1)

theorem dp_tables_unfold (words : List Word) (L : Int) {b : Nat} (hb : b < words.length) :
    dp_tables words L (words.length - b) b
      = dp_fold_min (dp_cand words L b) (dp_ends words L b) (-1, words.length - 1) := by
  obtain ⟨k, hk⟩ : ∃ k, words.length - b = k + 1 := ⟨words.length - b - 1, by omega⟩
  rw [hk]
  simp only [dp_tables, if_neg (by omega : ¬ words.length ≤ b)]
  apply dp_fold_min_congr
  intro e he
  have hmem := (mem_dp_ends_iff words L hb e).mp he
  unfold dp_cand min_badness
  rw [dp_tables_fuel_eq words L k (e + 1) (by omega)]

theorem min_badness_of_le (words : List Word) (L : Int) {b : Nat}
    (hb : words.length ≤ b) : min_badness words L b = 0 := by
  unfold min_badness
  rw [show words.length - b = 0 by omega]
  rfl

/-- Suffix optimality of the DP table: under the per-word validation,
`min_badness[b]` is attained by some valid partition of the word suffix
starting at `b`, and bounds from below the total badness of every valid
partition of that suffix. -/
theorem min_badness_spec (words : List Word) (L : Int)
    (hv : ∀ w ∈ words, (w.length : Int) ≤ L) :
    ∀ (k b : Nat), b ≤ words.length → words.length - b = k →
      (∃ p, p ∈ splits (words.drop b) ∧ (∀ g ∈ p, g ≠ [] ∧ min_length g ≤ L)
        ∧ total_badness L p = min_badness words L b) ∧
      (∀ p ∈ splits (words.drop b), (∀ g ∈ p, g ≠ [] ∧ min_length g ≤ L) →
        min_badness words L b ≤ total_badness L p) := by
  intro k
  induction k using Nat.strong_induction_on with
  | _ k ih =>
    intro b hble hk
    by_cases hbn : words.length ≤ b
    · have hb : b = words.length := by omega
      subst hb
      rw [min_badness_of_le words L le_rfl, List.drop_length]
      constructor
      · exact ⟨[], by simp [splits], by simp, by simp [total_badness]⟩
      · intro p hp _
        have : p = [] := by simpa [splits] using hp
        subst this
        simp [total_badness]
    · have hb : b < words.length := by omega
      have hends := mem_dp_ends_iff words L hb
      have hbmem : b ∈ dp_ends words L b := by
        rw [hends b]
        refine ⟨le_rfl, hb, ?_⟩
        rw [min_length_words_slice_self words hb]
        exact hv _ (List.getElem_mem hb)
      have hnn : ∀ e ∈ dp_ends words L b, 0 ≤ dp_cand words L b e := by
        intro e he
        obtain ⟨hbe, hen, hml⟩ := (hends e).mp he
        have h1 : 0 ≤ get_badness_pos (e - b + 1) L (min_length (words_slice words b e)) :=
          get_badness_pos_nonneg _ _ _ (by omega) hml
        have h2 : 0 ≤ min_badness words L (e + 1) := by
          obtain ⟨⟨p, hp, hpv, hpt⟩, _⟩ :=
            ih (words.length - (e + 1)) (by omega) (e + 1) (by omega) rfl
          rw [← hpt]
          exact total_badness_nonneg hpv
        unfold dp_cand
        omega
      have htab : min_badness words L b
          = (dp_fold_min (dp_cand words L b) (dp_ends words L b)
              (-1, words.length - 1)).1 := by
        unfold min_badness
        rw [dp_tables_unfold words L hb]
      have hdne : words.drop b ≠ [] := by
        intro h
        have := congrArg List.length h
        rw [List.length_drop] at this
        simp at this
        omega
      rcases dp_fold_min_spec (dp_cand words L b) (dp_ends words L b)
          (-1, words.length - 1) hnn with ⟨heq, hkept⟩ | ⟨hmem, hval, hbound, _⟩
      · exact absurd rfl (hkept b hbmem).1
      · obtain ⟨hbe, hen, hml⟩ := (hends _).mp hmem
        obtain ⟨⟨p', hp', hp'v, hp't⟩, _⟩ :=
          ih (words.length -
            ((dp_fold_min (dp_cand words L b) (dp_ends words L b)
              (-1, words.length - 1)).2 + 1)) (by omega)
            ((dp_fold_min (dp_cand words L b) (dp_ends words L b)
              (-1, words.length - 1)).2 + 1) (by omega) rfl
        constructor
        · refine ⟨words_slice words b
              (dp_fold_min (dp_cand words L b) (dp_ends words L b)
                (-1, words.length - 1)).2 :: p', ?_, ?_, ?_⟩
          · rw [mem_splits_iff_take_drop hdne]
            refine ⟨(dp_fold_min (dp_cand words L b) (dp_ends words L b)
                (-1, words.length - 1)).2 + 1 - b, p', by omega, ?_, ?_, rfl⟩
            · rw [List.length_drop]
              omega
            · rw [List.drop_drop,
                show b + ((dp_fold_min (dp_cand words L b) (dp_ends words L b)
                  (-1, words.length - 1)).2 + 1 - b)
                  = (dp_fold_min (dp_cand words L b) (dp_ends words L b)
                    (-1, words.length - 1)).2 + 1 by omega]
              exact hp'
          · intro g hg
            rcases List.mem_cons.mp hg with rfl | hg'
            · exact ⟨words_slice_ne_nil words hbe hen, hml⟩
            · exact hp'v g hg'
          · rw [total_badness_cons, length_words_slice words hbe hen,
              show (dp_fold_min (dp_cand words L b) (dp_ends words L b)
                  (-1, words.length - 1)).2 + 1 - b
                = (dp_fold_min (dp_cand words L b) (dp_ends words L b)
                  (-1, words.length - 1)).2 - b + 1 by omega,
              hp't, htab, hval]
            rfl
        · intro p hp hpv
          rw [mem_splits_iff_take_drop hdne] at hp
          obtain ⟨kk, q, hk1, hkle, hq, rfl⟩ := hp
          have hkn : kk ≤ words.length - b := by
            rw [List.length_drop] at hkle
            exact hkle
          have he_lt : b + kk - 1 < words.length := by omega
          have hbe' : b ≤ b + kk - 1 := by omega
          have hslice : (words.drop b).take kk = words_slice words b (b + kk - 1) := by
            unfold words_slice
            congr 1
            omega
          have hgv := hpv _ (List.mem_cons_self _ _)
          have hememb : b + kk - 1 ∈ dp_ends words L b := by
            rw [hends]
            exact ⟨hbe', he_lt, by rw [← hslice]; exact hgv.2⟩
          have hqv : ∀ g ∈ q, g ≠ [] ∧ min_length g ≤ L :=
            fun g hg => hpv g (List.mem_cons.mpr (Or.inr hg))
          have hq' : q ∈ splits (words.drop (b + kk)) := by
            rw [← List.drop_drop]
            exact hq
          obtain ⟨_, hmin'⟩ :=
            ih (words.length - (b + kk)) (by omega) (b + kk) (by omega) rfl
          have hq_ge := hmin' q hq' hqv
          rw [total_badness_cons]
          have hlen_g : ((words.drop b).take kk).length = kk := by
            rw [List.length_take, List.length_drop]
            omega
          rw [hlen_g, htab, hslice]
          have hcand := hbound _ hememb
          have hrw : dp_cand words L b (b + kk - 1)
              = get_badness_pos kk L (min_length (words_slice words b (b + kk - 1)))
                + min_badness words L (b + kk) := by
            unfold dp_cand
            rw [show (b + kk - 1) - b + 1 = kk by omega,
              show (b + kk - 1) + 1 = b + kk by omega]
          rw [hrw] at hcand
          omega

theorem min_badness_nonneg (words : List Word) (L : Int)
    (hv : ∀ w ∈ words, (w.length : Int) ≤ L) {b : Nat} (hb : b ≤ words.length) :
    0 ≤ min_badness words L b := by
  obtain ⟨⟨p, hp, hpv, hpt⟩, _⟩ :=
    min_badness_spec words L hv (words.length - b) b hb rfl
  rw [← hpt]
  exact total_badness_nonneg hpv

theorem self_mem_dp_ends (words : List Word) (L : Int)
    (hv : ∀ w ∈ words, (w.length : Int) ≤ L) {b : Nat} (hb : b < words.length) :
    b ∈ dp_ends words L b := by
  rw [mem_dp_ends_iff words L hb b]
  refine ⟨le_rfl, hb, ?_⟩
  rw [min_length_words_slice_self words hb]
  exact hv _ (List.getElem_mem hb)

theorem dp_ends_cand_nonneg (words : List Word) (L : Int)
    (hv : ∀ w ∈ words, (w.length : Int) ≤ L) {b : Nat} (hb : b < words.length) :
    ∀ e ∈ dp_ends words L b, 0 ≤ dp_cand words L b e := by
  intro e he
  obtain ⟨hbe, hen, hml⟩ := (mem_dp_ends_iff words L hb e).mp he
  have h1 : 0 ≤ get_badness_pos (e - b + 1) L (min_length (words_slice words b e)) :=
    get_badness_pos_nonneg _ _ _ (by omega) hml
  have h2 : 0 ≤ min_badness words L (e + 1) :=
    min_badness_nonneg words L hv (by omega)
  unfold dp_cand
  omega

/-- `best_end[b]` is a feasible end and attains `min_badness[b]`. -/
theorem best_end_spec (words : List Word) (L : Int)
    (hv : ∀ w ∈ words, (w.length : Int) ≤ L) {b : Nat} (hb : b < words.length) :
    best_end words L b ∈ dp_ends words L b ∧
    min_badness words L b = dp_cand words L b (best_end words L b) := by
  have hnn := dp_ends_cand_nonneg words L hv hb
  have hbmem := self_mem_dp_ends words L hv hb
  have hbe : best_end words L b
      = (dp_fold_min (dp_cand words L b) (dp_ends words L b) (-1, words.length - 1)).2 := by
    unfold best_end
    rw [dp_tables_unfold words L hb]
  have hmb : min_badness words L b
      = (dp_fold_min (dp_cand words L b) (dp_ends words L b) (-1, words.length - 1)).1 := by
    unfold min_badness
    rw [dp_tables_unfold words L hb]
  rcases dp_fold_min_spec (dp_cand words L b) (dp_ends words L b)
      (-1, words.length - 1) hnn with ⟨_, hkept⟩ | ⟨hmem, hval, _, _⟩
  · exact absurd rfl (hkept b hbmem).1
  · rw [hbe, hmb]
    exact ⟨hmem, hval⟩

/-- The reconstruction loop produces a valid partition of the suffix whose
total badness is exactly `min_badness[b]`. -/
theorem dp_reconstruct_spec (words : List Word) (L : Int)
    (hv : ∀ w ∈ words, (w.length : Int) ≤ L) :
    ∀ (k b : Nat), b ≤ words.length → words.length - b = k →
      ∀ fuel, words.length - b ≤ fuel →
      dp_reconstruct words L fuel b ∈ splits (words.drop b) ∧
      (∀ g ∈ dp_reconstruct words L fuel b, g ≠ [] ∧ min_length g ≤ L) ∧
      total_badness L (dp_reconstruct words L fuel b) = min_badness words L b := by
  intro k
  induction k using Nat.strong_induction_on with
  | _ k ih =>
    intro b hble hk fuel hfuel
    by_cases hbn : words.length ≤ b
    · have hrec : dp_reconstruct words L fuel b = [] := by
        cases fuel with
        | zero => rfl
        | succ fuel => simp [dp_reconstruct, hbn]
      rw [hrec, List.drop_eq_nil_of_le hbn]
      exact ⟨by simp [splits], by simp,
        by simp [total_badness, min_badness_of_le words L hbn]⟩
    · have hb : b < words.length := by omega
      obtain ⟨fuel', rfl⟩ : ∃ f', fuel = f' + 1 := ⟨fuel - 1, by omega⟩
      have hrec : dp_reconstruct words L (fuel' + 1) b
          = words_slice words b (best_end words L b)
            :: dp_reconstruct words L fuel' (best_end words L b + 1) := by
        simp [dp_reconstruct, hbn]
      obtain ⟨hmem, hval⟩ := best_end_spec words L hv hb
      obtain ⟨hbe, hen, hml⟩ := (mem_dp_ends_iff words L hb _).mp hmem
      obtain ⟨ihs, ihv, iht⟩ :=
        ih (words.length - (best_end words L b + 1)) (by omega)
          (best_end words L b + 1) (by omega) rfl fuel' (by omega)
      rw [hrec]
      refine ⟨?_, ?_, ?_⟩
      · have hdne : words.drop b ≠ [] := by
          intro h
          have := congrArg List.length h
          rw [List.length_drop] at this
          simp at this
          omega
        rw [mem_splits_iff_take_drop hdne]
        refine ⟨best_end words L b + 1 - b, dp_reconstruct words L fuel'
          (best_end words L b + 1), by omega, ?_, ?_, rfl⟩
        · rw [List.length_drop]
          omega
        · rw [List.drop_drop,
            show b + (best_end words L b + 1 - b) = best_end words L b + 1 by omega]
          exact ihs
      · intro g hg
        rcases List.mem_cons.mp hg with rfl | hg'
        · exact ⟨words_slice_ne_nil words hbe hen, hml⟩
        · exact ihv g hg'
      · rw [total_badness_cons, length_words_slice words hbe hen, iht, hval,
          show best_end words L b + 1 - b = best_end words L b - b + 1 by omega]
        rfl

/-- The partition rendered by the DP strategy is a valid partition of the
whole word list attaining `min_badness[0]`. -/
theorem dp_partition_spec (words : List Word) (L : Int)
    (hv : ∀ w ∈ words, (w.length : Int) ≤ L) :
    dp_partition words L ∈ splits words ∧
    (∀ g ∈ dp_partition words L, g ≠ [] ∧ min_length g ≤ L) ∧
    total_badness L (dp_partition words L) = min_badness words L 0 := by
  have h := dp_reconstruct_spec words L hv words.length 0 (by omega) (by omega)
    words.length (by omega)
  simpa using h

/-! ## The exhaustive strategy: subsets as break sets -/

/-- The step of the inner scan of `justify_text_bruteforce`, named for the
proofs (identical to the lambda in `subset_scan`). -/
def bf_scan_step (words : List Word) (line_length : Int) (subset : Nat)
    (acc : Option (Nat × Int)) (i : Nat) : Option (Nat × Int) :=
  match acc with
  | none => none
  | some (b, badness) =>
    if subset.testBit i then
      let words_tmp := words_slice words b i
      if line_length < min_length words_tmp ∨ words_tmp.length = 0 then none
      else
        some (i + 1,
          badness + get_badness_pos words_tmp.length line_length (min_length words_tmp))
    else acc

/-- The step of the reconstruction loop of `justify_text_bruteforce`. -/
def bf_groups_step (words : List Word) (subset : Nat)
    (acc : Nat × List (List Word)) (i : Nat) : Nat × List (List Word) :=
  if subset.testBit i then (i + 1, acc.2 ++ [words_slice words acc.1 i]) else acc

theorem subset_scan_eq (words : List Word) (L : Int) (s : Nat) :
    subset_scan words L s
      = ((List.range' 0 words.length).foldl (bf_scan_step words L s)
          (some (0, 0))).map Prod.snd := by
  unfold subset_scan bf_scan_step
  rw [List.range_eq_range']

theorem subset_groups_eq (words : List Word) (s : Nat) :
    subset_groups words s
      = ((List.range' 0 words.length).foldl (bf_groups_step words s) (0, [])).2 := by
  unfold subset_groups bf_groups_step
  rw [List.range_eq_range']

theorem bf_scan_none (words : List Word) (L : Int) (s : Nat) :
    ∀ l : List Nat, l.foldl (bf_scan_step words L s) none = none := by
  intro l
  induction l with
  | nil => rfl
  | cons i l ih => simpa [bf_scan_step] using ih

/-- Break positions of a partition whose first group starts at absolute
index `g`: position `j` is a break when some group of the partition ends
there. -/
def is_break (g : Nat) : List (List Word) → Nat → Bool
  | [], _ => false
  | grp :: rest, j =>
    if j = g + grp.length - 1 then true else is_break (g + grp.length) rest j

theorem is_break_ge {p : List (List Word)} (hne : ∀ gr ∈ p, gr ≠ []) :
    ∀ (g j : Nat), is_break g p j = true → g ≤ j := by
  induction p with
  | nil => intro g j h; simp [is_break] at h
  | cons grp rest ih =>
    intro g j h
    have hgrp : 1 ≤ grp.length := by
      have := List.length_pos.mpr (hne grp (List.mem_cons_self _ _))
      omega
    rw [is_break] at h
    by_cases hj : j = g + grp.length - 1
    · omega
    · rw [if_neg hj] at h
      have := ih (fun gr hgr => hne gr (List.mem_cons.mpr (Or.inr hgr))) (g + grp.length) j h
      omega

/-- The last break of a partition sits at the last index it covers. -/
theorem is_break_last : ∀ (p : List (List Word)) (g : Nat),
    (∀ gr ∈ p, gr ≠ []) → p ≠ [] →
    is_break g p (g + p.flatten.length - 1) = true := by
  intro p
  induction p with
  | nil => intro g _ h; exact absurd rfl h
  | cons grp rest ih =>
    intro g hne _
    by_cases hrest : rest = []
    · subst hrest
      simp [is_break, List.flatten_cons, List.flatten_nil, List.append_nil]
    · have hflat : 1 ≤ rest.flatten.length := by
        obtain ⟨r, rs, rfl⟩ : ∃ r rs, rest = r :: rs := by
          cases rest with
          | nil => exact absurd rfl hrest
          | cons r rs => exact ⟨r, rs, rfl⟩
        have : r ≠ [] := hne r (by simp)
        have := List.length_pos.mpr this
        simp only [List.flatten_cons, List.length_append]
        omega
      have hgrp : 1 ≤ grp.length := by
        have := List.length_pos.mpr (hne grp (List.mem_cons_self _ _))
        omega
      rw [is_break, if_neg (by simp only [List.flatten_cons, List.length_append]; omega)]
      have := ih (g + grp.length) (fun gr hgr => hne gr (List.mem_cons.mpr (Or.inr hgr)))
        hrest
      rw [show g + (grp :: rest).flatten.length - 1
          = g + grp.length + rest.flatten.length - 1 by
        simp only [List.flatten_cons, List.length_append]; omega]
      exact this

/-- The number with the given low `k` bits. -/
def of_bits (β : Nat → Bool) : Nat → Nat
  | 0 => 0
  | k + 1 => of_bits β k + (if β k then 2 ^ k else 0)

theorem of_bits_lt (β : Nat → Bool) : ∀ k, of_bits β k < 2 ^ k := by
  intro k
  induction k with
  | zero => simp [of_bits]
  | succ k ih =>
    rw [of_bits, pow_succ]
    by_cases h : β k
    · rw [if_pos h]
      omega
    · rw [if_neg h]
      omega

theorem of_bits_testBit (β : Nat → Bool) :
    ∀ k i, (of_bits β k).testBit i = (β i && decide (i < k)) := by
  intro k
  induction k with
  | zero =>
    intro i
    have h0 : of_bits β 0 = 0 := rfl
    rw [h0, Nat.zero_testBit]
    simp
  | succ k ih =>
    intro i
    rcases lt_trichotomy i k with h | h | h
    · rw [of_bits]
      by_cases hb : β k
      · rw [if_pos hb, Nat.add_comm, Nat.testBit_two_pow_add_gt h, ih i,
          decide_eq_true (by omega : i < k), decide_eq_true (by omega : i < k + 1)]
      · rw [if_neg hb, Nat.add_zero, ih i]
        rw [decide_eq_true (by omega : i < k), decide_eq_true (by omega : i < k + 1)]
    · subst h
      rw [of_bits]
      by_cases hb : β i
      · rw [if_pos hb, Nat.add_comm, Nat.testBit_two_pow_add_eq]
        have : (of_bits β i).testBit i = false := Nat.testBit_lt_two_pow (of_bits_lt β i)
        rw [this]
        simp [hb]
      · rw [if_neg hb, Nat.add_zero]
        have : (of_bits β i).testBit i = false := Nat.testBit_lt_two_pow (of_bits_lt β i)
        rw [this]
        simp [hb]
    · have hlt : of_bits β (k + 1) < 2 ^ i := by
        calc of_bits β (k + 1) < 2 ^ (k + 1) := of_bits_lt β (k + 1)
        _ ≤ 2 ^ i := Nat.pow_le_pow_right (by omega) (by omega)
      rw [Nat.testBit_lt_two_pow hlt]
      have : ¬ (i < k + 1) := by omega
      simp [this]

theorem drop_ne_nil_of_lt {words : List Word} {g : Nat} (h : g < words.length) :
    words.drop g ≠ [] := by
  intro hh
  have := congrArg List.length hh
  rw [List.length_drop] at this
  simp at this
  omega

/-- Soundness of the inner scan of the exhaustive strategy: if the scan
(whose subset has its top bit forced) completes with a value, the breaks cut
the remaining suffix into a valid partition whose badness the scan summed,
and the reconstruction fold appends exactly that partition. -/
theorem bf_scan_sound (words : List Word) (L : Int) (s : Nat)
    (htop : s.testBit (words.length - 1) = true) :
    ∀ (k : Nat), ∀ (i g : Nat), i + k = words.length → g ≤ i →
      (k = 0 → g = words.length) →
    ∀ (bad : Int) (res : Nat × Int),
      (List.range' i k).foldl (bf_scan_step words L s) (some (g, bad)) = some res →
      ∃ p, p ∈ splits (words.drop g) ∧ (∀ gr ∈ p, gr ≠ [] ∧ min_length gr ≤ L)
        ∧ total_badness L p = res.2 - bad
        ∧ ∀ acc : List (List Word),
            (List.range' i k).foldl (bf_groups_step words s) (g, acc)
              = (words.length, acc ++ p) := by
  intro k
  induction k with
  | zero =>
    intro i g hik hgi hg0 bad res hfold
    have hg : g = words.length := hg0 rfl
    subst hg
    simp only [List.range'_zero, List.foldl_nil, Option.some_inj] at hfold
    refine ⟨[], ?_, by simp, ?_, ?_⟩
    · rw [List.drop_length]
      simp [splits]
    · rw [← hfold]
      simp [total_badness]
    · intro acc
      simp
  | succ k ih =>
    intro i g hik hgi hg0 bad res hfold
    have hin : i < words.length := by omega
    rw [List.range'_succ, List.foldl_cons] at hfold
    by_cases hbit : s.testBit i = true
    · have hstep : bf_scan_step words L s (some (g, bad)) i
          = if L < min_length (words_slice words g i)
              ∨ (words_slice words g i).length = 0
            then none
            else some (i + 1, bad + get_badness_pos (words_slice words g i).length L
              (min_length (words_slice words g i))) := by
        simp [bf_scan_step, hbit]
      by_cases hvalid : L < min_length (words_slice words g i)
          ∨ (words_slice words g i).length = 0
      · rw [hstep, if_pos hvalid, bf_scan_none] at hfold
        cases hfold
      · rw [hstep, if_neg hvalid] at hfold
        push_neg at hvalid
        obtain ⟨p', hp's, hp'v, hp't, hp'g⟩ :=
          ih (i + 1) (i + 1) (by omega) (by omega) (by intro h0; omega) _ res hfold
        refine ⟨words_slice words g i :: p', ?_, ?_, ?_, ?_⟩
        · rw [mem_splits_iff_take_drop (drop_ne_nil_of_lt (by omega))]
          exact ⟨i + 1 - g, p', by omega, by rw [List.length_drop]; omega,
            by rw [List.drop_drop, show g + (i + 1 - g) = i + 1 by omega]; exact hp's,
            rfl⟩
        · intro gr hgr
          rcases List.mem_cons.mp hgr with rfl | h
          · refine ⟨?_, hvalid.1⟩
            intro hnil
            exact hvalid.2 (by rw [hnil]; rfl)
          · exact hp'v gr h
        · rw [total_badness_cons, hp't]
          ring
        · intro acc
          rw [List.range'_succ, List.foldl_cons]
          have hgstep : bf_groups_step words s (g, acc) i
              = (i + 1, acc ++ [words_slice words g i]) := by
            simp [bf_groups_step, hbit]
          rw [hgstep, hp'g (acc ++ [words_slice words g i])]
          simp
    · have hbit' : s.testBit i = false := by simpa using hbit
      have hstep : bf_scan_step words L s (some (g, bad)) i = some (g, bad) := by
        simp [bf_scan_step, hbit']
      rw [hstep] at hfold
      have hk0 : k = 0 → g = words.length := by
        intro h0
        exfalso
        have hni : i = words.length - 1 := by omega
        rw [hni, htop] at hbit'
        cases hbit'
      obtain ⟨p', hp's, hp'v, hp't, hp'g⟩ :=
        ih (i + 1) g (by omega) (by omega) hk0 bad res hfold
      refine ⟨p', hp's, hp'v, hp't, ?_⟩
      intro acc
      rw [List.range'_succ, List.foldl_cons]
      have hgstep : bf_groups_step words s (g, acc) i = (g, acc) := by
        simp [bf_groups_step, hbit']
      rw [hgstep]
      exact hp'g acc

/-- Completeness of the inner scan: a subset whose bits on the remaining
positions are exactly the break positions of a valid partition of the
remaining suffix makes the scan succeed with that partition's badness. -/
theorem bf_scan_complete (words : List Word) (L : Int) (s : Nat) :
    ∀ (k : Nat), ∀ (i g : Nat) (p : List (List Word)) (bad : Int),
      i + k = words.length → g ≤ i →
      p ∈ splits (words.drop g) →
      (∀ gr ∈ p, gr ≠ [] ∧ min_length gr ≤ L) →
      (∀ j, i ≤ j → j < words.length → s.testBit j = is_break g p j) →
      (∀ j, g ≤ j → j < i → is_break g p j = false) →
      (List.range' i k).foldl (bf_scan_step words L s) (some (g, bad))
        = some (words.length, bad + total_badness L p) := by
  intro k
  induction k with
  | zero =>
    intro i g p bad hik hgi hps hpv hbits hfirst
    have hgn : g = words.length := by
      by_contra hgn
      have hg : g < words.length := by omega
      obtain ⟨hflat, hne⟩ := splits_flatten hps
      obtain ⟨g1, rest, rfl⟩ : ∃ g1 rest, p = g1 :: rest := by
        cases p with
        | nil => exact absurd hflat.symm (drop_ne_nil_of_lt hg)
        | cons a b => exact ⟨a, b, rfl⟩
      have hg1 : 1 ≤ g1.length := by
        have := List.length_pos.mpr (hne g1 (List.mem_cons_self _ _))
        omega
      have hg1le : g1.length ≤ words.length - g := by
        have := congrArg List.length hflat
        rw [List.length_drop] at this
        simp only [List.flatten_cons, List.length_append] at this
        omega
      have hbrk : is_break g (g1 :: rest) (g + g1.length - 1) = true := by
        rw [is_break, if_pos rfl]
      have hoff := hfirst (g + g1.length - 1) (by omega) (by omega)
      rw [hoff] at hbrk
      cases hbrk
    subst hgn
    have hpnil : p = [] := by
      rw [List.drop_length] at hps
      simpa [splits] using hps
    subst hpnil
    simp [total_badness]
  | succ k ih =>
    intro i g p bad hik hgi hps hpv hbits hfirst
    have hin : i < words.length := by omega
    have hg : g < words.length := by omega
    obtain ⟨k1, q, hk11, hk1le, hq, rfl⟩ :=
      (mem_splits_iff_take_drop (drop_ne_nil_of_lt hg)).mp hps
    rw [List.length_drop] at hk1le
    have hgrlen : ((words.drop g).take k1).length = k1 := by
      rw [List.length_take, List.length_drop]
      omega
    have hqv : ∀ gr ∈ q, gr ≠ [] ∧ min_length gr ≤ L :=
      fun gr h => hpv gr (List.mem_cons.mpr (Or.inr h))
    have he1 : is_break g ((words.drop g).take k1 :: q) (g + k1 - 1) = true := by
      rw [is_break, hgrlen, if_pos rfl]
    have hfge : i ≤ g + k1 - 1 := by
      by_contra hc
      have hoff := hfirst (g + k1 - 1) (by omega) (by omega)
      rw [hoff] at he1
      cases he1
    rw [List.range'_succ, List.foldl_cons]
    by_cases hcase : i = g + k1 - 1
    · have hbit : s.testBit i = true := by
        rw [hbits i le_rfl hin, hcase]
        exact he1
      have hslice : words_slice words g i = (words.drop g).take k1 := by
        unfold words_slice
        congr 1
        omega
      have hvg := hpv _ (List.mem_cons_self _ _)
      have hcond : ¬ (L < min_length (words_slice words g i)
          ∨ (words_slice words g i).length = 0) := by
        rw [hslice, hgrlen]
        push_neg
        exact ⟨hvg.2, by omega⟩
      have hstep : bf_scan_step words L s (some (g, bad)) i
          = some (i + 1, bad + get_badness_pos (words_slice words g i).length L
              (min_length (words_slice words g i))) := by
        simp only [bf_scan_step, hbit, if_true, if_neg hcond]
      rw [hstep]
      have hq' : q ∈ splits (words.drop (i + 1)) := by
        rw [show i + 1 = g + k1 by omega, ← List.drop_drop]
        exact hq
      have hih := ih (i + 1) (i + 1) q
        (bad + get_badness_pos (words_slice words g i).length L
          (min_length (words_slice words g i)))
        (by omega) le_rfl hq' hqv
        (by
          intro j hj hjn
          rw [hbits j (by omega) hjn, is_break, hgrlen, if_neg (by omega),
            show g + k1 = i + 1 by omega])
        (by intro j h1 h2; omega)
      rw [hih, total_badness_cons, hslice, hgrlen, add_assoc]
    · have hbit : s.testBit i = false := by
        rw [hbits i le_rfl hin]
        simp only [is_break, hgrlen]
        rw [if_neg hcase]
        cases h' : is_break (g + k1) q i with
        | false => rfl
        | true =>
          have := is_break_ge (fun gr h => (hqv gr h).1) (g + k1) i h'
          omega
      have hstep : bf_scan_step words L s (some (g, bad)) i = some (g, bad) := by
        simp [bf_scan_step, hbit]
      rw [hstep]
      exact ih (i + 1) g ((words.drop g).take k1 :: q) bad (by omega) (by omega) hps hpv
        (fun j hj hjn => hbits j (by omega) hjn)
        (by
          intro j hj hji
          rcases Nat.lt_or_ge j i with h | h
          · exact hfirst j hj h
          · have hji' : j = i := by omega
            subst hji'
            rw [← hbits j le_rfl hin]
            exact hbit)

/-- Encoding a valid partition of the whole word list as an enumerated
subset: its forced-top-bit subset scans to exactly the partition's total
badness. -/
theorem partition_subset_scan (words : List Word) (L : Int) (hw : words ≠ [])
    (p : List (List Word)) (hps : p ∈ splits words)
    (hpv : ∀ gr ∈ p, gr ≠ [] ∧ min_length gr ≤ L) :
    ∃ s, s < 2 ^ (words.length - 1) ∧
      subset_scan words L (s ||| 2 ^ (words.length - 1))
        = some (total_badness L p) := by
  have hn : 1 ≤ words.length := by
    have := List.length_pos.mpr hw
    omega
  obtain ⟨hflat, hne⟩ := splits_flatten hps
  have hpne : p ≠ [] := by
    intro h
    subst h
    exact hw hflat.symm
  refine ⟨of_bits (is_break 0 p) (words.length - 1), of_bits_lt _ _, ?_⟩
  have hlast : is_break 0 p (words.length - 1) = true := by
    have h := is_break_last p 0 hne hpne
    rw [hflat] at h
    simpa using h
  have hbits : ∀ j, j < words.length →
      (of_bits (is_break 0 p) (words.length - 1) ||| 2 ^ (words.length - 1)).testBit j
        = is_break 0 p j := by
    intro j hj
    rw [Nat.testBit_lor, of_bits_testBit]
    by_cases hj' : j < words.length - 1
    · rw [decide_eq_true hj', Nat.testBit_two_pow,
        decide_eq_false (by omega : ¬ (words.length - 1 = j))]
      simp
    · have hjeq : j = words.length - 1 := by omega
      subst hjeq
      rw [Nat.testBit_two_pow_self, hlast]
      simp
  rw [subset_scan_eq]
  have hcomp := bf_scan_complete words L
    (of_bits (is_break 0 p) (words.length - 1) ||| 2 ^ (words.length - 1))
    words.length 0 0 p 0 (by omega) le_rfl (by simpa using hps) hpv
    (fun j _ hjn => hbits j hjn)
    (by intro j h1 h2; omega)
  rw [hcomp]
  simp

/-- The step of the outer loop of `justify_text_bruteforce`, named for the
proofs (identical to the lambda in `bf_best`). -/
def bf_best_step (words : List Word) (line_length : Int)
    (acc : Nat × Option Int) (s : Nat) : Nat × Option Int :=
  let subset := s ||| 2 ^ (words.length - 1)
  match subset_scan words line_length subset with
  | none => acc
  | some badness =>
    match acc.2 with
    | none => (subset, some badness)
    | some best_badness =>
      if badness < best_badness then (subset, some badness) else acc

theorem bf_best_eq (words : List Word) (L : Int) :
    bf_best words L
      = (List.range (2 ^ (words.length - 1))).foldl (bf_best_step words L) (0, none) :=
  rfl

/-- What the outer fold of the exhaustive strategy computes: either no
scanned subset was valid, or the result holds a scanned subset (with forced
top bit) of minimal badness. -/
theorem bf_best_fold_spec (words : List Word) (L : Int) :
    ∀ (l : List Nat) (acc : Nat × Option Int),
      (∀ v, acc.2 = some v → subset_scan words L acc.1 = some v
        ∧ acc.1.testBit (words.length - 1) = true) →
      ((l.foldl (bf_best_step words L) acc).2 = none →
        acc.2 = none ∧
          ∀ s ∈ l, subset_scan words L (s ||| 2 ^ (words.length - 1)) = none) ∧
      (∀ bd, (l.foldl (bf_best_step words L) acc).2 = some bd →
        subset_scan words L (l.foldl (bf_best_step words L) acc).1 = some bd
        ∧ (l.foldl (bf_best_step words L) acc).1.testBit (words.length - 1) = true
        ∧ (∀ s ∈ l, ∀ v,
            subset_scan words L (s ||| 2 ^ (words.length - 1)) = some v → bd ≤ v)
        ∧ (∀ v, acc.2 = some v → bd ≤ v)) := by
  intro l
  induction l with
  | nil =>
    intro acc hacc
    constructor
    · intro hnone
      simp only [List.foldl_nil] at hnone
      exact ⟨hnone, by simp⟩
    · intro bd hbd
      simp only [List.foldl_nil] at hbd ⊢
      obtain ⟨h1, h2⟩ := hacc bd hbd
      refine ⟨h1, h2, by simp, ?_⟩
      intro v hv
      rw [hbd] at hv
      injection hv with hv
      omega
  | cons s l ih =>
    intro acc hacc
    have htopbit : (s ||| 2 ^ (words.length - 1)).testBit (words.length - 1) = true := by
      rw [Nat.testBit_lor, Nat.testBit_two_pow_self]
      simp
    rw [List.foldl_cons]
    cases hscan : subset_scan words L (s ||| 2 ^ (words.length - 1)) with
    | none =>
      have hstep : bf_best_step words L acc s = acc := by
        simp only [bf_best_step, hscan]
      rw [hstep]
      obtain ⟨ihn, ihs⟩ := ih acc hacc
      constructor
      · intro hnone
        obtain ⟨h1, h2⟩ := ihn hnone
        refine ⟨h1, ?_⟩
        intro s' hs'
        rcases List.mem_cons.mp hs' with rfl | h
        · exact hscan
        · exact h2 s' h
      · intro bd hbd
        obtain ⟨h1, h2, h3, h4⟩ := ihs bd hbd
        refine ⟨h1, h2, ?_, h4⟩
        intro s' hs' v hv
        rcases List.mem_cons.mp hs' with rfl | h
        · rw [hscan] at hv
          cases hv
        · exact h3 s' h v hv
    | some bd0 =>
      have hnew : ∀ (acc' : Nat × Option Int),
          acc' = (s ||| 2 ^ (words.length - 1), some bd0) →
          (∀ v, acc'.2 = some v → subset_scan words L acc'.1 = some v
            ∧ acc'.1.testBit (words.length - 1) = true) := by
        rintro acc' rfl v hv
        injection hv with hv
        subst hv
        exact ⟨hscan, htopbit⟩
      cases hacc2 : acc.2 with
      | none =>
        have hstep : bf_best_step words L acc s
            = (s ||| 2 ^ (words.length - 1), some bd0) := by
          simp only [bf_best_step, hscan, hacc2]
        rw [hstep]
        obtain ⟨ihn, ihs⟩ := ih _ (hnew _ rfl)
        constructor
        · intro hnone
          obtain ⟨h1, _⟩ := ihn hnone
          cases h1
        · intro bd hbd
          obtain ⟨h1, h2, h3, h4⟩ := ihs bd hbd
          refine ⟨h1, h2, ?_, ?_⟩
          · intro s' hs' v hv
            rcases List.mem_cons.mp hs' with rfl | h
            · rw [hscan] at hv
              injection hv with hv
              subst hv
              exact h4 _ rfl
            · exact h3 s' h v hv
          · intro v hv
            simp [hacc2] at hv
      | some best =>
        by_cases hlt : bd0 < best
        · have hstep : bf_best_step words L acc s
              = (s ||| 2 ^ (words.length - 1), some bd0) := by
            simp only [bf_best_step, hscan, hacc2, if_pos hlt]
          rw [hstep]
          obtain ⟨ihn, ihs⟩ := ih _ (hnew _ rfl)
          constructor
          · intro hnone
            obtain ⟨h1, _⟩ := ihn hnone
            cases h1
          · intro bd hbd
            obtain ⟨h1, h2, h3, h4⟩ := ihs bd hbd
            have hbdbd0 : bd ≤ bd0 := h4 bd0 rfl
            refine ⟨h1, h2, ?_, ?_⟩
            · intro s' hs' v hv
              rcases List.mem_cons.mp hs' with rfl | h
              · rw [hscan] at hv
                injection hv with hv
                omega
              · exact h3 s' h v hv
            · intro v hv
              injection hv with hv
              omega
        · have hstep : bf_best_step words L acc s = acc := by
            simp only [bf_best_step, hscan, hacc2, if_neg hlt]
          rw [hstep]
          obtain ⟨ihn, ihs⟩ := ih acc hacc
          constructor
          · intro hnone
            obtain ⟨h1, _⟩ := ihn hnone
            rw [hacc2] at h1
            cases h1
          · intro bd hbd
            obtain ⟨h1, h2, h3, h4⟩ := ihs bd hbd
            have hbdbest : bd ≤ best := h4 best hacc2
            refine ⟨h1, h2, ?_, ?_⟩
            · intro s' hs' v hv
              rcases List.mem_cons.mp hs' with rfl | h
              · rw [hscan] at hv
                injection hv with hv
                omega
              · exact h3 s' h v hv
            · intro v hv
              exact h4 v (by rw [hacc2]; exact hv)

/-- Top-level soundness of the exhaustive scan: a successful scan of a
subset with forced top bit yields a valid partition of the whole word list,
which `subset_groups` reconstructs. -/
theorem subset_scan_some (words : List Word) (L : Int) (s : Nat) (hw : words ≠ [])
    (htop : s.testBit (words.length - 1) = true) {tot : Int}
    (hscan : subset_scan words L s = some tot) :
    subset_groups words s ∈ splits words
    ∧ (∀ gr ∈ subset_groups words s, gr ≠ [] ∧ min_length gr ≤ L)
    ∧ total_badness L (subset_groups words s) = tot := by
  rw [subset_scan_eq] at hscan
  obtain ⟨res, hres, hres2⟩ := Option.map_eq_some'.mp hscan
  have hn : 1 ≤ words.length := by
    have := List.length_pos.mpr hw
    omega
  obtain ⟨p, hps, hpv, hpt, hpg⟩ := bf_scan_sound words L s htop words.length 0 0
    (by omega) le_rfl (by intro h; omega) 0 res hres
  rw [subset_groups_eq, hpg []]
  simp only [List.nil_append]
  refine ⟨by simpa using hps, hpv, ?_⟩
  rw [hpt, hres2]
  ring

/-- **C1**: for every valid input, the dynamic-programming and exhaustive
strategies produce partitions with identical total badness, and that
badness is the minimum total badness over all partitions of the word
sequence into contiguous groups whose minimum rendered length fits the
width. -/
theorem dp_bruteforce_optimal (words : List Word) (L : Int)
    (hw : words ≠ []) (hne : ∀ w ∈ words, w ≠ []) (hL : 0 < L)
    (hv : ∀ w ∈ words, (w.length : Int) ≤ L) :
    total_badness L (dp_partition words L) = total_badness L (bf_partition words L)
    ∧ dp_partition words L ∈ splits words
    ∧ valid_partition L (dp_partition words L)
    ∧ ∀ p ∈ splits words, valid_partition L p →
        total_badness L (dp_partition words L) ≤ total_badness L p := by
  obtain ⟨hdps, hdpv, hdpt⟩ := dp_partition_spec words L hv
  have hmin : ∀ p ∈ splits words, valid_partition L p →
      total_badness L (dp_partition words L) ≤ total_badness L p := by
    intro p hp hpv
    obtain ⟨_, hminb⟩ := min_badness_spec words L hv words.length 0 (by omega) (by omega)
    rw [hdpt]
    exact hminb p (by simpa using hp) hpv
  refine ⟨?_, hdps, hdpv, hmin⟩
  obtain ⟨s0, hs0lt, hs0scan⟩ := partition_subset_scan words L hw
    (dp_partition words L) hdps hdpv
  have hfold := bf_best_fold_spec words L (List.range (2 ^ (words.length - 1)))
    (0, none) (by intro v hv'; cases hv')
  rw [← bf_best_eq words L] at hfold
  cases hbb : (bf_best words L).2 with
  | none =>
    obtain ⟨_, hnone⟩ := hfold.1 hbb
    rw [hnone s0 (List.mem_range.mpr hs0lt)] at hs0scan
    cases hs0scan
  | some bd =>
    obtain ⟨hscan, htopb, hbound, _⟩ := hfold.2 bd hbb
    obtain ⟨hbps, hbpv, hbpt⟩ := subset_scan_some words L (bf_best words L).1 hw htopb hscan
    have h1 : bd ≤ total_badness L (dp_partition words L) :=
      hbound s0 (List.mem_range.mpr hs0lt) _ hs0scan
    have h2 : total_badness L (dp_partition words L) ≤ bd := by
      rw [← hbpt]
      exact hmin _ hbps hbpv
    unfold bf_partition
    omega

theorem dp_bruteforce_optimal_witness :
    total_badness 3 (dp_partition [['a'], ['b'], ['c']] 3)
      = total_badness 3 (bf_partition [['a'], ['b'], ['c']] 3) :=
  (dp_bruteforce_optimal [['a'], ['b'], ['c']] 3 (by decide) (by decide) (by decide)
    (by decide)).1

/-- Successful `mapM` over a list whose elements all map to `ok`. -/
theorem mapM_ok_of_forall {α β : Type} (f : α → Except JustifyError β) :
    ∀ (l : List α), (∀ a ∈ l, ∃ b, f a = .ok b) →
    ∃ bs, l.mapM f = .ok bs ∧ List.Forall₂ (fun a b => f a = .ok b) l bs := by
  intro l
  induction l with
  | nil => exact fun _ => ⟨[], rfl, List.Forall₂.nil⟩
  | cons a l ih =>
    intro h
    obtain ⟨b, hb⟩ := h a (List.mem_cons_self _ _)
    obtain ⟨bs, hbs, hfa⟩ := ih fun a' ha' => h a' (List.mem_cons.mpr (Or.inr ha'))
    refine ⟨b :: bs, ?_, List.Forall₂.cons hb hfa⟩
    rw [List.mapM_cons, hb, hbs]
    rfl

theorem mem_of_forall₂ {α β : Type} {R : α → β → Prop} :
    ∀ {l1 : List α} {l2 : List β}, List.Forall₂ R l1 l2 →
      ∀ b ∈ l2, ∃ a ∈ l1, R a b := by
  intro l1 l2 h
  induction h with
  | nil => intro b hb; simp at hb
  | @cons a b' l1' l2' hR _ ih =>
    intro b hb
    rcases List.mem_cons.mp hb with rfl | hb'
    · exact ⟨a, List.mem_cons_self _ _, hR⟩
    · obtain ⟨a', ha', hR'⟩ := ih b hb'
      exact ⟨a', List.mem_cons.mpr (Or.inr ha'), hR'⟩

theorem is_break_singletons : ∀ (l : List Word) (g j : Nat),
    is_break g (l.map fun w => [w]) j = decide (g ≤ j ∧ j < g + l.length) := by
  intro l
  induction l with
  | nil =>
    intro g j
    simp only [List.map_nil, is_break, List.length_nil, Nat.add_zero]
    rw [eq_comm, decide_eq_false_iff_not]
    omega
  | cons w ls ih =>
    intro g j
    have hunfold : is_break g ((w :: ls).map fun w => [w]) j
        = if j = g then true else is_break (g + 1) (ls.map fun w => [w]) j := by
      simp [is_break]
    rw [hunfold]
    by_cases hj : j = g
    · rw [if_pos hj, eq_comm, decide_eq_true_eq]
      simp only [List.length_cons]
      omega
    · rw [if_neg hj, ih (g + 1) j, decide_eq_decide]
      simp only [List.length_cons]
      omega

/-- The all-singletons subset (every word on its own line) always scans
successfully when every word fits the width. -/
theorem singleton_scan_some (words : List Word) (L : Int) (hw : words ≠ [])
    (hv : ∀ w ∈ words, (w.length : Int) ≤ L) :
    subset_scan words L ((2 ^ (words.length - 1) - 1) ||| 2 ^ (words.length - 1))
      = some (total_badness L (words.map fun w => [w])) := by
  have hn : 1 ≤ words.length := by
    have := List.length_pos.mpr hw
    omega
  have hp0v : ∀ gr ∈ words.map (fun w => [w]), gr ≠ [] ∧ min_length gr ≤ L := by
    intro gr hgr
    obtain ⟨w, hw', rfl⟩ := List.mem_map.mp hgr
    have hml : min_length [w] = (w.length : Int) := by simp [min_length]
    exact ⟨by simp, by rw [hml]; exact hv w hw'⟩
  have hbits : ∀ j, j < words.length →
      ((2 ^ (words.length - 1) - 1) ||| 2 ^ (words.length - 1)).testBit j
        = is_break 0 (words.map fun w => [w]) j := by
    intro j hj
    have hrhs : is_break 0 (words.map fun w => [w]) j = true := by
      rw [is_break_singletons words 0 j]
      exact decide_eq_true ⟨by omega, by omega⟩
    rw [hrhs, Nat.testBit_lor, Nat.testBit_two_pow_sub_one, Nat.testBit_two_pow]
    by_cases hj' : j < words.length - 1
    · rw [decide_eq_true hj']
      simp
    · rw [decide_eq_true (show words.length - 1 = j by omega)]
      simp
  rw [subset_scan_eq]
  rw [bf_scan_complete words L _ words.length 0 0 (words.map fun w => [w]) 0
    (by omega) le_rfl (by simpa using map_singleton_mem_splits words) hp0v
    (fun j _ hjn => hbits j hjn) (by intro j h1 h2; omega)]
  simp

/-- When every word fits the width, the exhaustive strategy finds a best
subset, and the partition it reconstructs is a valid partition of the word
list attaining that best badness. -/
theorem bf_success (words : List Word) (L : Int) (hw : words ≠ [])
    (hv : ∀ w ∈ words, (w.length : Int) ≤ L) :
    ∃ bd, (bf_best words L).2 = some bd
      ∧ bf_partition words L ∈ splits words
      ∧ (∀ gr ∈ bf_partition words L, gr ≠ [] ∧ min_length gr ≤ L)
      ∧ total_badness L (bf_partition words L) = bd := by
  have hscan := singleton_scan_some words L hw hv
  have hfold := bf_best_fold_spec words L (List.range (2 ^ (words.length - 1)))
    (0, none) (by intro v hv'; cases hv')
  rw [← bf_best_eq words L] at hfold
  have hmem : 2 ^ (words.length - 1) - 1 ∈ List.range (2 ^ (words.length - 1)) := by
    rw [List.mem_range]
    have : 0 < 2 ^ (words.length - 1) := by positivity
    omega
  cases hbb : (bf_best words L).2 with
  | none =>
    obtain ⟨_, hall⟩ := hfold.1 hbb
    rw [hall _ hmem] at hscan
    cases hscan
  | some bd =>
    obtain ⟨hscan', htopb, _, _⟩ := hfold.2 bd hbb
    obtain ⟨h1, h2, h3⟩ := subset_scan_some words L (bf_best words L).1 hw htopb hscan'
    exact ⟨bd, rfl, h1, h2, h3⟩

/-- **C9**: when every word fits the width, the exhaustive strategy's
failure branch is unreachable: the enumerated subset that puts every word
on its own line scans to a value, `best_badness` is not `None`, and
`justify_text_bruteforce` does not raise the internal failure. -/
theorem bruteforce_failure_unreachable (words : List Word) (L : Int)
    (hw : words ≠ []) (hv : ∀ w ∈ words, (w.length : Int) ≤ L) :
    subset_scan words L ((2 ^ (words.length - 1) - 1) ||| 2 ^ (words.length - 1)) ≠ none
    ∧ (bf_best words L).2 ≠ none
    ∧ justify_text_bruteforce words L ≠ .error .bruteforceFailed := by
  obtain ⟨bd, hbb, _, hbpv, _⟩ := bf_success words L hw hv
  refine ⟨by rw [singleton_scan_some words L hw hv]; simp, by rw [hbb]; simp, ?_⟩
  obtain ⟨lines, hlines, _⟩ :=
    mapM_ok_of_forall (fun g => words_to_line g L (min_length g))
      (bf_partition words L)
      (fun g hg => by
        obtain ⟨line, hline, _⟩ := words_to_line_ok g L (hbpv g hg).1 (hbpv g hg).2
        exact ⟨line, hline⟩)
  intro hcontra
  simp only [justify_text_bruteforce, hbb, hlines] at hcontra
  cases hcontra

theorem bruteforce_failure_unreachable_witness :
    (bf_best [['a'], ['b']] 2).2 ≠ none :=
  (bruteforce_failure_unreachable [['a'], ['b']] 2 (by decide) (by decide)).2.1

/-! ## The greedy strategy's groups -/

theorem min_length_singleton (w : Word) : min_length [w] = (w.length : Int) := by
  simp [min_length]

/-- Invariant of the greedy scan state: closed groups are non-empty, carry
their exact minimum length, and fit; the tracked length of the open group
is its minimum length (0 when it is empty) and fits. -/
def greedy_inv (L : Int) (st : GreedyState) : Prop :=
  (∀ gm ∈ st.result, gm.1 ≠ [] ∧ gm.2 = min_length gm.1 ∧ min_length gm.1 ≤ L)
  ∧ (st.words_tmp = [] → st.current_line_min_length = 0)
  ∧ (st.words_tmp ≠ [] →
      st.current_line_min_length = min_length st.words_tmp
      ∧ min_length st.words_tmp ≤ L)

theorem greedy_fold_inv (L : Int) :
    ∀ (ws : List Word) (st : GreedyState), (∀ w ∈ ws, (w.length : Int) ≤ L) →
      greedy_inv L st →
      greedy_inv L (ws.foldl (greedy_step L) st)
      ∧ ((ws.foldl (greedy_step L) st).result.map Prod.fst).flatten
          ++ (ws.foldl (greedy_step L) st).words_tmp
        = ((st.result.map Prod.fst).flatten ++ st.words_tmp) ++ ws := by
  intro ws
  induction ws with
  | nil =>
    intro st _ hinv
    exact ⟨hinv, by simp⟩
  | cons w ws ih =>
    intro st hv hinv
    obtain ⟨hres, hemp, hne⟩ := hinv
    have hwL : (w.length : Int) ≤ L := hv w (List.mem_cons_self _ _)
    have hv' : ∀ w' ∈ ws, (w'.length : Int) ≤ L :=
      fun w' h => hv w' (List.mem_cons.mpr (Or.inr h))
    rw [List.foldl_cons]
    by_cases hflush : L < st.current_line_min_length + w.length
        + (if 0 < st.words_tmp.length then 1 else 0)
    · have hstep : greedy_step L st w
          = ⟨st.result ++ [(st.words_tmp, st.current_line_min_length)], [w],
              (w.length : Int)⟩ := by
        simp only [greedy_step, if_pos hflush]
      have htmp_ne : st.words_tmp ≠ [] := by
        intro h0
        rw [h0, hemp h0] at hflush
        simp at hflush
        omega
      have hinv' : greedy_inv L (greedy_step L st w) := by
        rw [hstep]
        unfold greedy_inv
        dsimp only
        refine ⟨?_, ?_, ?_⟩
        · intro gm hgm
          rcases List.mem_append.mp hgm with h | h
          · exact hres gm h
          · rw [List.mem_singleton] at h
            subst h
            exact ⟨htmp_ne, (hne htmp_ne).1, (hne htmp_ne).2⟩
        · intro h
          simp at h
        · intro _
          rw [min_length_singleton]
          exact ⟨rfl, hwL⟩
      obtain ⟨hfinal, hflat⟩ := ih _ hv' hinv'
      refine ⟨hfinal, ?_⟩
      rw [hflat, hstep]
      dsimp only
      simp [List.append_assoc]
    · have hstep : greedy_step L st w
          = ⟨st.result, st.words_tmp ++ [w], st.current_line_min_length + w.length
              + (if 0 < st.words_tmp.length then 1 else 0)⟩ := by
        simp only [greedy_step, if_neg hflush]
      push_neg at hflush
      have hinv' : greedy_inv L (greedy_step L st w) := by
        rw [hstep]
        unfold greedy_inv
        dsimp only
        refine ⟨hres, ?_, ?_⟩
        · intro h
          simp at h
        · intro _
          by_cases h0 : st.words_tmp = []
          · rw [h0, hemp h0] at hflush ⊢
            simp only [List.length_nil, List.nil_append, min_length_singleton,
              lt_irrefl, if_false] at hflush ⊢
            constructor
            · ring
            · omega
          · have hpos : 0 < st.words_tmp.length := List.length_pos.mpr h0
            have hcur := (hne h0).1
            rw [if_pos hpos] at hflush ⊢
            rw [min_length_append_singleton, hcur]
            exact ⟨rfl, by omega⟩
      obtain ⟨hfinal, hflat⟩ := ih _ hv' hinv'
      refine ⟨hfinal, ?_⟩
      rw [hflat, hstep]
      dsimp only
      simp [List.append_assoc]

theorem greedy_groups_spec (words : List Word) (L : Int)
    (hv : ∀ w ∈ words, (w.length : Int) ≤ L) :
    (∀ gm ∈ greedy_groups words L,
      gm.1 ≠ [] ∧ gm.2 = min_length gm.1 ∧ min_length gm.1 ≤ L)
    ∧ ((greedy_groups words L).map Prod.fst).flatten = words := by
  have hinv0 : greedy_inv L ⟨[], [], 0⟩ := ⟨by simp, fun _ => rfl, fun h => absurd rfl h⟩
  obtain ⟨⟨hres, hemp, hne⟩, hflat⟩ := greedy_fold_inv L words ⟨[], [], 0⟩ hv hinv0
  simp only [List.map_nil, List.flatten_nil, List.nil_append] at hflat
  simp only [greedy_groups]
  by_cases htmp : 0 < (words.foldl (greedy_step L) ⟨[], [], 0⟩).words_tmp.length
  · rw [if_pos htmp]
    constructor
    · intro gm hgm
      rcases List.mem_append.mp hgm with h | h
      · exact hres gm h
      · rw [List.mem_singleton] at h
        subst h
        have htne : (words.foldl (greedy_step L) ⟨[], [], 0⟩).words_tmp ≠ [] := by
          intro h0
          rw [h0] at htmp
          simp at htmp
        exact ⟨htne, (hne htne).1, (hne htne).2⟩
    · rw [List.map_append, List.flatten_append]
      simpa using hflat
  · rw [if_neg htmp]
    have htnil : (words.foldl (greedy_step L) ⟨[], [], 0⟩).words_tmp = [] :=
      List.length_eq_zero.mp (by omega)
    refine ⟨hres, ?_⟩
    rw [htnil, List.append_nil] at hflat
    exact hflat

/-! ## Width exactness of all three strategies (claim C2) -/

theorem justify_text_dispatch (words : List Word) (L : Int) (algorithm : String)
    (halg : algorithm = "dynamic" ∨ algorithm = "greedy" ∨ algorithm = "bruteforce")
    (hw : words ≠ [])
    (hv : ∀ w ∈ words, (w.length : Int) ≤ L) :
    justify_text words L algorithm
      = if algorithm = "dynamic" then justify_text_dp words L
        else if algorithm = "greedy" then justify_text_greedy words L
        else justify_text_bruteforce words L := by
  have hcond : ¬ (algorithm ≠ "dynamic" ∧ algorithm ≠ "greedy"
      ∧ algorithm ≠ "bruteforce") := by
    rcases halg with h | h | h <;> simp [h]
  have hlen : ¬ words.length = 0 := by simpa [List.length_eq_zero] using hw
  have hfind : words.find? (fun w => decide (L < (w.length : Int))) = none := by
    rw [List.find?_eq_none]
    intro w hw'
    simp only [decide_eq_true_eq, not_lt]
    exact hv w hw'
  unfold justify_text
  rw [if_neg hcond, if_neg hlen, hfind]

/-- **C2**: for every list of non-empty words each fitting the positive
width, and each of the three strategies, `justify_text` succeeds and every
returned line has length exactly the width. -/
theorem justify_text_width_exact (words : List Word) (L : Int) (algorithm : String)
    (hne : ∀ w ∈ words, w ≠ []) (hv : ∀ w ∈ words, (w.length : Int) ≤ L) (hL : 0 < L)
    (halg : algorithm = "dynamic" ∨ algorithm = "greedy" ∨ algorithm = "bruteforce") :
    ∃ lines, justify_text words L algorithm = .ok lines
      ∧ ∀ line ∈ lines, (line.length : Int) = L := by
  have hcond : ¬ (algorithm ≠ "dynamic" ∧ algorithm ≠ "greedy"
      ∧ algorithm ≠ "bruteforce") := by
    rcases halg with h | h | h <;> simp [h]
  by_cases hw : words = []
  · subst hw
    refine ⟨[], ?_, by simp⟩
    unfold justify_text
    rw [if_neg hcond]
    rfl
  · rw [justify_text_dispatch words L algorithm halg hw hv]
    rcases halg with rfl | rfl | rfl
    · rw [if_pos rfl]
      obtain ⟨_, hdpv, _⟩ := dp_partition_spec words L hv
      obtain ⟨lines, hlines, hfa⟩ :=
        mapM_ok_of_forall (fun g => words_to_line g L (min_length g))
          (dp_partition words L)
          (fun g hg => by
            obtain ⟨line, h1, _⟩ := words_to_line_ok g L (hdpv g hg).1 (hdpv g hg).2
            exact ⟨line, h1⟩)
      refine ⟨lines, hlines, ?_⟩
      intro line hline
      obtain ⟨g, hg, hR⟩ := mem_of_forall₂ hfa line hline
      obtain ⟨line', h1, h2⟩ := words_to_line_ok g L (hdpv g hg).1 (hdpv g hg).2
      rw [hR] at h1
      injection h1 with h1
      rw [h1]
      exact h2
    · rw [if_neg (by decide), if_pos rfl]
      obtain ⟨hgv, _⟩ := greedy_groups_spec words L hv
      obtain ⟨lines, hlines, hfa⟩ :=
        mapM_ok_of_forall (fun gm => words_to_line gm.1 L gm.2)
          (greedy_groups words L)
          (fun gm hgm => by
            obtain ⟨h1, h2, h3⟩ := hgv gm hgm
            obtain ⟨line, hl, _⟩ := words_to_line_ok gm.1 L h1 h3
            exact ⟨line, by dsimp only; rw [h2]; exact hl⟩)
      refine ⟨lines, hlines, ?_⟩
      intro line hline
      obtain ⟨gm, hgm, hR⟩ := mem_of_forall₂ hfa line hline
      obtain ⟨h1, h2, h3⟩ := hgv gm hgm
      obtain ⟨line', hl, hlen'⟩ := words_to_line_ok gm.1 L h1 h3
      rw [h2, hl] at hR
      injection hR with hR
      rw [← hR]
      exact hlen'
    · rw [if_neg (by decide), if_neg (by decide)]
      obtain ⟨bd, hbb, _, hbpv, _⟩ := bf_success words L hw hv
      obtain ⟨lines, hlines, hfa⟩ :=
        mapM_ok_of_forall (fun g => words_to_line g L (min_length g))
          (bf_partition words L)
          (fun g hg => by
            obtain ⟨line, h1, _⟩ := words_to_line_ok g L (hbpv g hg).1 (hbpv g hg).2
            exact ⟨line, h1⟩)
      have hjt : justify_text_bruteforce words L
          = (bf_partition words L).mapM fun g => words_to_line g L (min_length g) := by
        simp only [justify_text_bruteforce, hbb]
      refine ⟨lines, by rw [hjt]; exact hlines, ?_⟩
      intro line hline
      obtain ⟨g, hg, hR⟩ := mem_of_forall₂ hfa line hline
      obtain ⟨line', h1, h2⟩ := words_to_line_ok g L (hbpv g hg).1 (hbpv g hg).2
      rw [hR] at h1
      injection h1 with h1
      rw [h1]
      exact h2

theorem justify_text_width_exact_witness :
    ∃ lines, justify_text ["ab".toList, "c".toList] 4 "greedy" = .ok lines
      ∧ ∀ line ∈ lines, (line.length : Int) = 4 :=
  justify_text_width_exact ["ab".toList, "c".toList] 4 "greedy" (by decide) (by decide)
    (by decide) (Or.inr (Or.inl rfl))

/-! ## The round trip (claim C3)

The claim's reading side: join the returned lines (with the newline the CLI
prints between lines) and split on whitespace, as Python's `str.split()`
does. -/

/-- Whitespace splitter modelling Python's `str.split()`: maximal runs of
non-whitespace characters, whitespace discarded. -/
def splitWS : List Char → List (List Char)
  | [] => []
  | c :: cs =>
    if c.isWhitespace then splitWS cs
    else (c :: cs.takeWhile (fun d => !d.isWhitespace))
      :: splitWS (cs.dropWhile (fun d => !d.isWhitespace))
termination_by l => l.length
decreasing_by
  · simp only [List.length_cons]
    omega
  · simp only [List.length_cons]
    have h := (List.dropWhile_sublist (fun d => !d.isWhitespace) (l := cs)).length_le
    omega

/-- Newline-joining of the returned lines, as the CLI prints them. -/
def join_lines : List Line → List Char
  | [] => []
  | [l] => l
  | l :: ls => l ++ '\n' :: join_lines ls

theorem takeWhile_append_all {p : Char → Bool} :
    ∀ (u v : List Char), (∀ c ∈ u, p c = true) →
      (u ++ v).takeWhile p = u ++ v.takeWhile p := by
  intro u
  induction u with
  | nil => intro v _; simp
  | cons c u ih =>
    intro v h
    rw [List.cons_append, List.takeWhile_cons, if_pos (h c (List.mem_cons_self _ _)),
      ih v (fun d hd => h d (List.mem_cons.mpr (Or.inr hd))), List.cons_append]

theorem dropWhile_append_all {p : Char → Bool} :
    ∀ (u v : List Char), (∀ c ∈ u, p c = true) →
      (u ++ v).dropWhile p = v.dropWhile p := by
  intro u
  induction u with
  | nil => intro v _; simp
  | cons c u ih =>
    intro v h
    rw [List.cons_append, List.dropWhile_cons, if_pos (h c (List.mem_cons_self _ _)),
      ih v (fun d hd => h d (List.mem_cons.mpr (Or.inr hd)))]

theorem splitWS_ws_cons {c : Char} (hc : c.isWhitespace = true) (l : List Char) :
    splitWS (c :: l) = splitWS l := by
  rw [splitWS, if_pos hc]

/-- A run of non-whitespace characters followed by nothing or by whitespace
is extracted as one token. -/
theorem splitWS_token (w : List Char) (l : List Char)
    (hw : w ≠ []) (hnw : ∀ c ∈ w, c.isWhitespace = false)
    (hl : l = [] ∨ ∃ d l', l = d :: l' ∧ d.isWhitespace = true) :
    splitWS (w ++ l) = w :: splitWS l := by
  obtain ⟨c, w', rfl⟩ : ∃ c w', w = c :: w' := by
    cases w with
    | nil => exact absurd rfl hw
    | cons c w' => exact ⟨c, w', rfl⟩
  have hc : c.isWhitespace = false := hnw c (List.mem_cons_self _ _)
  have hw' : ∀ d ∈ w', (fun d => !d.isWhitespace) d = true := by
    intro d hd
    simp [hnw d (List.mem_cons.mpr (Or.inr hd))]
  have htake : (w' ++ l).takeWhile (fun d => !d.isWhitespace) = w' := by
    rw [takeWhile_append_all w' l hw']
    have : l.takeWhile (fun d => !d.isWhitespace) = [] := by
      rcases hl with rfl | ⟨d, l', rfl, hd⟩
      · rfl
      · rw [List.takeWhile_cons, if_neg (by simp [hd])]
    rw [this, List.append_nil]
  have hdrop : (w' ++ l).dropWhile (fun d => !d.isWhitespace) = l := by
    rw [dropWhile_append_all w' l hw']
    rcases hl with rfl | ⟨d, l', rfl, hd⟩
    · rfl
    · rw [List.dropWhile_cons, if_neg (by simp [hd])]
  rw [List.cons_append, splitWS, if_neg (by simp [hc]), htake, hdrop]

theorem takeWhile_append_ws {c : Char} (hc : c.isWhitespace = true) :
    ∀ (a b : List Char), (a ++ c :: b).takeWhile (fun d => !d.isWhitespace)
      = a.takeWhile (fun d => !d.isWhitespace) := by
  intro a b
  induction a with
  | nil =>
    rw [List.nil_append, List.takeWhile_cons, if_neg (by simp [hc])]
    rfl
  | cons y a'' ihy =>
    rw [List.cons_append, List.takeWhile_cons, List.takeWhile_cons]
    by_cases hy : (!y.isWhitespace) = true
    · rw [if_pos hy, if_pos hy, ihy]
    · rw [if_neg hy, if_neg hy]

theorem dropWhile_append_ws {c : Char} (hc : c.isWhitespace = true) :
    ∀ (a b : List Char), (a ++ c :: b).dropWhile (fun d => !d.isWhitespace)
      = a.dropWhile (fun d => !d.isWhitespace) ++ c :: b := by
  intro a b
  induction a with
  | nil =>
    rw [List.nil_append, List.dropWhile_cons, if_neg (by simp [hc])]
    rfl
  | cons y a'' ihy =>
    rw [List.cons_append, List.dropWhile_cons, List.dropWhile_cons]
    by_cases hy : (!y.isWhitespace) = true
    · rw [if_pos hy, if_pos hy, ihy]
    · rw [if_neg hy, if_neg hy, List.cons_append]

theorem splitWS_nil : splitWS [] = [] := by
  rw [splitWS]

/-- Splitting distributes over a whitespace separator. -/
theorem splitWS_append_ws {c : Char} (hc : c.isWhitespace = true) :
    ∀ (a b : List Char), splitWS (a ++ c :: b) = splitWS a ++ splitWS b := by
  suffices h : ∀ (n : Nat) (a : List Char), a.length = n →
      ∀ b, splitWS (a ++ c :: b) = splitWS a ++ splitWS b by
    intro a b
    exact h a.length a rfl b
  intro n
  induction n using Nat.strong_induction_on with
  | _ n ih =>
    intro a ha b
    cases a with
    | nil =>
      rw [List.nil_append, splitWS_ws_cons hc, splitWS_nil, List.nil_append]
    | cons x a' =>
      by_cases hx : x.isWhitespace = true
      · rw [List.cons_append, splitWS_ws_cons hx, splitWS_ws_cons hx]
        exact ih a'.length (by rw [← ha]; simp) a' rfl b
      · have hx' : x.isWhitespace = false := by
          cases h : x.isWhitespace
          · rfl
          · exact absurd h hx
        rw [List.cons_append, splitWS, if_neg (by simp [hx']), splitWS,
          if_neg (by simp [hx'])]
        rw [takeWhile_append_ws hc, dropWhile_append_ws hc]
        have hlen : (a'.dropWhile (fun d => !d.isWhitespace)).length < n := by
          rw [← ha]
          simp only [List.length_cons]
          have h := (List.dropWhile_sublist (fun d => !d.isWhitespace) (l := a')).length_le
          omega
        rw [ih _ hlen _ rfl b, List.cons_append]

theorem splitWS_replicate_space (n : Nat) (l : List Char) :
    splitWS (List.replicate n ' ' ++ l) = splitWS l := by
  induction n with
  | zero => simp
  | succ n ih =>
    rw [List.replicate_succ, List.cons_append, splitWS_ws_cons (by decide)]
    exact ih

theorem splitWS_replicate_space_nil (n : Nat) :
    splitWS (List.replicate n ' ') = [] := by
  rw [← List.append_nil (List.replicate n ' '), splitWS_replicate_space, splitWS_nil]

/-- Every rendered gap run starts with a space character. -/
theorem words_to_line_go_head (q : Nat) (v : Word) (ws' : List Word) (m : Nat) :
    ∃ l', words_to_line_go q (v :: ws') m = ' ' :: l' := by
  rw [words_to_line_go_cons]
  by_cases hm : 0 < m
  · rw [if_pos hm, show q + 2 = q + 1 + 1 by omega, List.replicate_succ,
      List.cons_append, List.cons_append]
    exact ⟨_, rfl⟩
  · rw [if_neg hm, List.replicate_succ, List.cons_append, List.cons_append]
    exact ⟨_, rfl⟩

theorem splitWS_go (q : Nat) :
    ∀ (ws : List Word) (m : Nat),
      (∀ w ∈ ws, w ≠ [] ∧ ∀ c ∈ w, c.isWhitespace = false) →
      splitWS (words_to_line_go q ws m) = ws := by
  intro ws
  induction ws with
  | nil =>
    intro m _
    simp [words_to_line_go, splitWS_nil]
  | cons w ws ih =>
    intro m hws
    have hw := hws w (List.mem_cons_self _ _)
    have hws' : ∀ w' ∈ ws, w' ≠ [] ∧ ∀ c ∈ w', c.isWhitespace = false :=
      fun w' h => hws w' (List.mem_cons.mpr (Or.inr h))
    have htail : ∀ (m' : Nat), words_to_line_go q ws m' = []
        ∨ ∃ d l', words_to_line_go q ws m' = d :: l' ∧ d.isWhitespace = true := by
      intro m'
      cases ws with
      | nil => exact Or.inl rfl
      | cons v ws' =>
        obtain ⟨l', hl'⟩ := words_to_line_go_head q v ws' m'
        exact Or.inr ⟨' ', l', hl', by decide⟩
    rw [words_to_line_go_cons]
    by_cases hm : 0 < m
    · rw [if_pos hm, List.append_assoc, splitWS_replicate_space,
        splitWS_token w _ hw.1 hw.2 (htail (m - 1)), ih (m - 1) hws']
    · rw [if_neg hm, List.append_assoc, splitWS_replicate_space,
        splitWS_token w _ hw.1 hw.2 (htail 0), ih 0 hws']

/-- Splitting a rendered line on whitespace recovers exactly its group. -/
theorem splitWS_words_to_line (g : List Word) (L : Int) (line : Line)
    (hg : g ≠ []) (hml : min_length g ≤ L)
    (hnw : ∀ w ∈ g, w ≠ [] ∧ ∀ c ∈ w, c.isWhitespace = false)
    (hrender : words_to_line g L (min_length g) = .ok line) :
    splitWS line = g := by
  match g, hrender with
  | [w], hrender =>
    have hw := hnw w (List.mem_cons_self _ _)
    have hline : line = w ++ List.replicate (L - min_length [w]).toNat ' ' := by
      have h := hrender
      simp only [words_to_line] at h
      injection h with h
      exact h.symm
    subst hline
    have hsep : List.replicate (L - min_length [w]).toNat ' ' = []
        ∨ ∃ d l', List.replicate (L - min_length [w]).toNat ' ' = d :: l'
          ∧ d.isWhitespace = true := by
      cases hn : (L - min_length [w]).toNat with
      | zero => exact Or.inl rfl
      | succ n =>
        rw [List.replicate_succ]
        exact Or.inr ⟨' ', _, rfl, by decide⟩
    rw [splitWS_token w _ hw.1 hw.2 hsep, splitWS_replicate_space_nil]
  | w :: v :: ws, hrender =>
    have hw := hnw w (List.mem_cons_self _ _)
    have hml0 : (0:Int) ≤ min_length (w :: v :: ws) := by
      have : (0:Int) ≤ ((((w :: v :: ws).map List.length).sum : Nat) : Int) := by positivity
      simp only [min_length, List.length_cons] at *
      push_cast at *
      omega
    rw [words_to_line_cons_cons, if_neg (by omega)] at hrender
    injection hrender with hrender
    rw [← hrender]
    obtain ⟨l', hl'⟩ := words_to_line_go_head
      ((L - min_length (w :: v :: ws)).toNat / (v :: ws).length) v ws
      ((L - min_length (w :: v :: ws)).toNat % (v :: ws).length)
    rw [splitWS_token w _ hw.1 hw.2 (Or.inr ⟨' ', l', hl', by decide⟩)]
    rw [splitWS_go _ _ _ (fun w' h => hnw w' (List.mem_cons.mpr (Or.inr h)))]

/-- Joining the lines of a rendered valid partition and splitting on
whitespace recovers the concatenation of its groups. -/
theorem round_trip_core (L : Int) :
    ∀ (p : List (List Word)) (lines : List Line),
      (∀ g ∈ p, g ≠ [] ∧ min_length g ≤ L
        ∧ ∀ w ∈ g, w ≠ [] ∧ ∀ c ∈ w, c.isWhitespace = false) →
      List.Forall₂ (fun g line => words_to_line g L (min_length g) = .ok line) p lines →
      splitWS (join_lines lines) = p.flatten := by
  intro p lines hprops hfa
  revert hprops
  induction hfa with
  | nil =>
    intro _
    simp [join_lines, splitWS_nil]
  | @cons g line p' lines' hR hrest ih =>
    intro hprops
    have hg := hprops g (List.mem_cons_self _ _)
    have hprops' : ∀ g' ∈ p', g' ≠ [] ∧ min_length g' ≤ L
        ∧ ∀ w ∈ g', w ≠ [] ∧ ∀ c ∈ w, c.isWhitespace = false :=
      fun g' h => hprops g' (List.mem_cons.mpr (Or.inr h))
    have hline : splitWS line = g :=
      splitWS_words_to_line g L line hg.1 hg.2.1 hg.2.2 hR
    cases lines' with
    | nil =>
      have hp' : p' = [] := by
        cases hrest
        rfl
      subst hp'
      rw [show join_lines [line] = line from rfl, hline]
      simp
    | cons l2 ls2 =>
      have hjoin : join_lines (line :: l2 :: ls2)
          = line ++ '\n' :: join_lines (l2 :: ls2) := rfl
      rw [hjoin, splitWS_append_ws (by decide), hline, ih hprops',
        List.flatten_cons]

theorem forall₂_map_fst {R : (List Word × Int) → Line → Prop}
    {S : List Word → Line → Prop} :
    ∀ {gg : List (List Word × Int)} {lines : List Line},
      List.Forall₂ R gg lines →
      (∀ gm ∈ gg, ∀ line, R gm line → S gm.1 line) →
      List.Forall₂ S (gg.map Prod.fst) lines := by
  intro gg lines hfa
  induction hfa with
  | nil => intro _; exact List.Forall₂.nil
  | @cons gm line gg' lines' hR hrest ih =>
    intro h
    exact List.Forall₂.cons (h gm (List.mem_cons_self _ _) line hR)
      (ih fun gm' h' line' hR' => h gm' (List.mem_cons.mpr (Or.inr h')) line' hR')

/-- **C3**: for every list of non-empty, whitespace-free words each fitting
the positive width, and each of the three strategies, joining the lines
returned by `justify_text` and splitting the result on whitespace
reproduces the original word sequence exactly, in order. -/
theorem justify_text_round_trip (words : List Word) (L : Int) (algorithm : String)
    (hne : ∀ w ∈ words, w ≠ [])
    (hws : ∀ w ∈ words, ∀ c ∈ w, c.isWhitespace = false)
    (hv : ∀ w ∈ words, (w.length : Int) ≤ L) (hL : 0 < L)
    (halg : algorithm = "dynamic" ∨ algorithm = "greedy" ∨ algorithm = "bruteforce") :
    ∃ lines, justify_text words L algorithm = .ok lines
      ∧ splitWS (join_lines lines) = words := by
  have hcond : ¬ (algorithm ≠ "dynamic" ∧ algorithm ≠ "greedy"
      ∧ algorithm ≠ "bruteforce") := by
    rcases halg with h | h | h <;> simp [h]
  by_cases hw : words = []
  · subst hw
    refine ⟨[], ?_, by simp [join_lines, splitWS_nil]⟩
    unfold justify_text
    rw [if_neg hcond]
    rfl
  · rw [justify_text_dispatch words L algorithm halg hw hv]
    rcases halg with rfl | rfl | rfl
    · rw [if_pos rfl]
      obtain ⟨hdps, hdpv, _⟩ := dp_partition_spec words L hv
      have hflat := (splits_flatten hdps).1
      have hprops : ∀ g ∈ dp_partition words L, g ≠ [] ∧ min_length g ≤ L
          ∧ ∀ w ∈ g, w ≠ [] ∧ ∀ c ∈ w, c.isWhitespace = false := by
        intro g hg
        refine ⟨(hdpv g hg).1, (hdpv g hg).2, ?_⟩
        intro w hwmem
        have hwin : w ∈ words := by
          rw [← hflat]
          exact List.mem_flatten.mpr ⟨g, hg, hwmem⟩
        exact ⟨hne w hwin, hws w hwin⟩
      obtain ⟨lines, hlines, hfa⟩ :=
        mapM_ok_of_forall (fun g => words_to_line g L (min_length g))
          (dp_partition words L)
          (fun g hg => by
            obtain ⟨line, h1, _⟩ := words_to_line_ok g L (hdpv g hg).1 (hdpv g hg).2
            exact ⟨line, h1⟩)
      refine ⟨lines, hlines, ?_⟩
      rw [round_trip_core L (dp_partition words L) lines hprops hfa, hflat]
    · rw [if_neg (by decide), if_pos rfl]
      obtain ⟨hgv, hflat⟩ := greedy_groups_spec words L hv
      have hprops : ∀ g ∈ (greedy_groups words L).map Prod.fst,
          g ≠ [] ∧ min_length g ≤ L
          ∧ ∀ w ∈ g, w ≠ [] ∧ ∀ c ∈ w, c.isWhitespace = false := by
        intro g hg
        obtain ⟨gm, hgm, rfl⟩ := List.mem_map.mp hg
        refine ⟨(hgv gm hgm).1, (hgv gm hgm).2.2, ?_⟩
        intro w hwmem
        have hwin : w ∈ words := by
          rw [← hflat]
          exact List.mem_flatten.mpr ⟨gm.1, List.mem_map_of_mem Prod.fst hgm, hwmem⟩
        exact ⟨hne w hwin, hws w hwin⟩
      obtain ⟨lines, hlines, hfa⟩ :=
        mapM_ok_of_forall (fun gm => words_to_line gm.1 L gm.2)
          (greedy_groups words L)
          (fun gm hgm => by
            obtain ⟨h1, h2, h3⟩ := hgv gm hgm
            obtain ⟨line, hl, _⟩ := words_to_line_ok gm.1 L h1 h3
            exact ⟨line, by dsimp only; rw [h2]; exact hl⟩)
      have hfa' : List.Forall₂
          (fun g line => words_to_line g L (min_length g) = .ok line)
          ((greedy_groups words L).map Prod.fst) lines :=
        forall₂_map_fst hfa (by
          intro gm hgm line hR
          rw [← (hgv gm hgm).2.1]
          exact hR)
      refine ⟨lines, hlines, ?_⟩
      rw [round_trip_core L _ lines hprops hfa', hflat]
    · rw [if_neg (by decide), if_neg (by decide)]
      obtain ⟨bd, hbb, hbps, hbpv, _⟩ := bf_success words L hw hv
      have hflat := (splits_flatten hbps).1
      have hprops : ∀ g ∈ bf_partition words L, g ≠ [] ∧ min_length g ≤ L
          ∧ ∀ w ∈ g, w ≠ [] ∧ ∀ c ∈ w, c.isWhitespace = false := by
        intro g hg
        refine ⟨(hbpv g hg).1, (hbpv g hg).2, ?_⟩
        intro w hwmem
        have hwin : w ∈ words := by
          rw [← hflat]
          exact List.mem_flatten.mpr ⟨g, hg, hwmem⟩
        exact ⟨hne w hwin, hws w hwin⟩
      obtain ⟨lines, hlines, hfa⟩ :=
        mapM_ok_of_forall (fun g => words_to_line g L (min_length g))
          (bf_partition words L)
          (fun g hg => by
            obtain ⟨line, h1, _⟩ := words_to_line_ok g L (hbpv g hg).1 (hbpv g hg).2
            exact ⟨line, h1⟩)
      have hjt : justify_text_bruteforce words L
          = (bf_partition words L).mapM fun g => words_to_line g L (min_length g) := by
        simp only [justify_text_bruteforce, hbb]
      refine ⟨lines, by rw [hjt]; exact hlines, ?_⟩
      rw [round_trip_core L (bf_partition words L) lines hprops hfa, hflat]

theorem justify_text_round_trip_witness :
    ∃ lines, justify_text ["ab".toList, "c".toList] 4 "dynamic" = .ok lines
      ∧ splitWS (join_lines lines) = ["ab".toList, "c".toList] :=
  justify_text_round_trip ["ab".toList, "c".toList] 4 "dynamic" (by decide) (by decide)
    (by decide) (by decide) (Or.inl rfl)
